import Mathlib

/-!
Shallow embedding of `src/checkers/ruleguard_checker.go` (package `checkers`
of the go-critic fork).  Pure data and control flow of the file are translated
into executable Lean definitions; the external collaborators (the ruleguard
engine, the filesystem, the host linter context) are modelled at the interface
they present, exactly as the Go code consumes them.

Machine integers never overflow in this file (indices and counters stay far
below 2^63), so Go `int` is modelled as `Nat`.
-/

/-- A finding collected by the `Report` callback in `WalkFile`
(`ruleguardReport` in the source): an AST node (identified by a number) and a
message string. -/
structure ruleguardReport where
  node : Nat
  message : String
deriving DecidableEq, Repr

instance : Inhabited ruleguardReport := ⟨⟨0, ""⟩⟩

/-- Lexicographic comparison of strings as character lists, comparing code
points.  Go compares strings byte-wise over their UTF-8 encoding, which
orders exactly like code-point comparison. -/
def strLtB : List Char → List Char → Bool
  | [], [] => false
  | [], _ :: _ => true
  | _ :: _, [] => false
  | a :: as, b :: bs =>
    if a.toNat < b.toNat then true
    else if b.toNat < a.toNat then false
    else strLtB as bs

/-- The comparator used at lines 199-201 of the source:
`reports[i].message < reports[j].message`. -/
abbrev msgLt (x y : ruleguardReport) : Prop :=
  strLtB x.message.data y.message.data = true

/-- Non-strict companion of `msgLt`; used only to state sortedness. -/
abbrev msgLe (x y : ruleguardReport) : Prop := ¬ msgLt y x

/-- Indexed read, `data[i]`.  All reads performed by the sort are in range;
the default value only keeps the model total. -/
def getI (l : List ruleguardReport) (i : Nat) : ruleguardReport :=
  l.getD i default

/-- Indexed swap, `data.Swap(i, j)`.  Out-of-range indices (which would panic
in Go and never occur in the executions modelled here) leave the list
unchanged, keeping the model total. -/
def swp (l : List ruleguardReport) (i j : Nat) : List ruleguardReport :=
  if i < l.length ∧ j < l.length then (l.set i (getI l j)).set j (getI l i) else l

/-!
The call `sort.Slice(reports, less)` at line 199 delegates to the Go runtime.
This project is from the Go 1.16 era (it still uses `ioutil.ReadFile`), whose
`sort.Slice` is the classic quicksort of `sort.go`: `quickSort_func` with
`doPivot`, `medianOfThree`, `heapSort` fallback, and a shell pass plus
insertion sort for ranges of at most 12 elements.  The functions below are a
line-by-line translation of that algorithm; loops become fuel-indexed
structural recursions the fuel of which is always sufficient (each loop of the
algorithm performs fewer iterations than the supplied fuel), so the model
computes exactly what the Go code computes.
-/

/-- Inner loop of `insertionSort`: `for j := i; j > a && Less(j, j-1); j--`,
swapping `j` and `j-1` at each step.  The second argument is `a`, the third
is the current `j`. -/
def bubble (l : List ruleguardReport) (a : Nat) : Nat → List ruleguardReport
  | 0 => l
  | j + 1 =>
    if a < j + 1 ∧ msgLt (getI l (j + 1)) (getI l j) then
      bubble (swp l (j + 1) j) a j
    else l

/-- Outer loop of `insertionSort`: `for i := a + 1; i < b; i++`. -/
def insSortA : Nat → List ruleguardReport → Nat → Nat → Nat → List ruleguardReport
  | 0, l, _, _, _ => l
  | fuel + 1, l, a, i, b =>
    if i < b then insSortA fuel (bubble l a i) a (i + 1) b else l

/-- Go `insertionSort(data, a, b)`. -/
def insertionSortGo (l : List ruleguardReport) (a b : Nat) : List ruleguardReport :=
  insSortA (b - a) l a (a + 1) b

/-- Shell pass of `quickSort` for short ranges:
`for i := a + 6; i < b; i++ { if Less(i, i-6) { Swap(i, i-6) } }`. -/
def shellA : Nat → List ruleguardReport → Nat → Nat → List ruleguardReport
  | 0, l, _, _ => l
  | fuel + 1, l, i, b =>
    if i < b then
      shellA fuel (if msgLt (getI l i) (getI l (i - 6)) then swp l i (i - 6) else l) (i + 1) b
    else l

/-- The whole gap-6 shell pass over `[a, b)`. -/
def shellGo (l : List ruleguardReport) (a b : Nat) : List ruleguardReport :=
  shellA b l (a + 6) b

/-- Go `siftDown(data, root, hi, first)`. -/
def siftDownGo : Nat → List ruleguardReport → Nat → Nat → Nat → List ruleguardReport
  | 0, l, _, _, _ => l
  | fuel + 1, l, root, hi, first =>
    if 2 * root + 1 ≥ hi then l
    else
      let child := 2 * root + 1
      let child :=
        if child + 1 < hi ∧ msgLt (getI l (first + child)) (getI l (first + child + 1)) then
          child + 1
        else child
      if ¬ msgLt (getI l (first + root)) (getI l (first + child)) then l
      else siftDownGo fuel (swp l (first + root) (first + child)) child hi first

/-- First loop of `heapSort`: build the heap,
`for i := (hi-1)/2; i >= 0; i--`.  The counter argument is `i + 1`. -/
def heapBuild (l : List ruleguardReport) (first hi : Nat) : Nat → List ruleguardReport
  | 0 => l
  | k + 1 => heapBuild (siftDownGo (hi + 1) l k hi first) first hi k

/-- Second loop of `heapSort`: pop elements,
`for i := hi - 1; i >= 0; i--`.  The counter argument is `i + 1`. -/
def heapPop (l : List ruleguardReport) (first : Nat) : Nat → List ruleguardReport
  | 0 => l
  | k + 1 => heapPop (siftDownGo (k + 1) (swp l first (first + k)) 0 k first) first k

/-- Go `heapSort(data, a, b)`. -/
def heapSortGo (l : List ruleguardReport) (a b : Nat) : List ruleguardReport :=
  heapPop (heapBuild l a (b - a) ((b - a - 1) / 2 + 1)) a (b - a)

/-- Go `medianOfThree(data, m1, m0, m2)`. -/
def medianOfThree (l : List ruleguardReport) (m1 m0 m2 : Nat) : List ruleguardReport :=
  let l1 := if msgLt (getI l m1) (getI l m0) then swp l m1 m0 else l
  if msgLt (getI l1 m2) (getI l1 m1) then
    let l2 := swp l1 m2 m1
    if msgLt (getI l2 m1) (getI l2 m0) then swp l2 m1 m0 else l2
  else l1

/-- The loop `for ; a < c && data.Less(a, pivot); a++`.  Returns the final `a`;
the data is not modified by this loop. -/
def advanceA : Nat → List ruleguardReport → Nat → Nat → Nat → Nat
  | 0, _, a, _, _ => a
  | fuel + 1, l, a, c, pivot =>
    if a < c ∧ msgLt (getI l a) (getI l pivot) then advanceA fuel l (a + 1) c pivot else a

/-- The loop `for ; b < c && !data.Less(pivot, b); b++`. -/
def advanceB : Nat → List ruleguardReport → Nat → Nat → Nat → Nat
  | 0, _, b, _, _ => b
  | fuel + 1, l, b, c, pivot =>
    if b < c ∧ ¬ msgLt (getI l pivot) (getI l b) then advanceB fuel l (b + 1) c pivot else b

/-- The loop `for ; b < c && data.Less(pivot, c-1); c--`. -/
def retreatC : Nat → List ruleguardReport → Nat → Nat → Nat → Nat
  | 0, _, _, c, _ => c
  | fuel + 1, l, b, c, pivot =>
    if b < c ∧ msgLt (getI l pivot) (getI l (c - 1)) then retreatC fuel l b (c - 1) pivot else c

/-- The main partition loop of `doPivot` (advance `b`, retreat `c`, swap
`b` with `c-1` until the indices cross). -/
def partLoop : Nat → List ruleguardReport → Nat → Nat → Nat →
    List ruleguardReport × Nat × Nat
  | 0, l, b, c, _ => (l, b, c)
  | fuel + 1, l, b, c, pivot =>
    let b1 := advanceB (c + 1) l b c pivot
    let c1 := retreatC (c + 1) l b1 c pivot
    if b1 ≥ c1 then (l, b1, c1)
    else partLoop fuel (swp l b1 (c1 - 1)) (b1 + 1) (c1 - 1) pivot

/-- The loop `for ; a < b && !data.Less(b-1, pivot); b--` of the protect
branch. -/
def retreatB2 : Nat → List ruleguardReport → Nat → Nat → Nat → Nat
  | 0, _, _, b, _ => b
  | fuel + 1, l, a, b, pivot =>
    if a < b ∧ ¬ msgLt (getI l (b - 1)) (getI l pivot) then retreatB2 fuel l a (b - 1) pivot else b

/-- The loop `for ; a < b && data.Less(a, pivot); a++` of the protect
branch. -/
def advanceA2 : Nat → List ruleguardReport → Nat → Nat → Nat → Nat
  | 0, _, a, _, _ => a
  | fuel + 1, l, a, b, pivot =>
    if a < b ∧ msgLt (getI l a) (getI l pivot) then advanceA2 fuel l (a + 1) b pivot else a

/-- The duplicate-protection loop of `doPivot`. -/
def protLoop : Nat → List ruleguardReport → Nat → Nat → Nat →
    List ruleguardReport × Nat × Nat
  | 0, l, a, b, _ => (l, a, b)
  | fuel + 1, l, a, b, pivot =>
    let b1 := retreatB2 (b + 1) l a b pivot
    let a1 := advanceA2 (b1 + 1) l a b1 pivot
    if a1 ≥ b1 then (l, a1, b1)
    else protLoop fuel (swp l a1 (b1 - 1)) (a1 + 1) (b1 - 1) pivot

/-- The Tukey ninther of `doPivot`, performed when `hi - lo > 40`. -/
def ninther (l : List ruleguardReport) (lo hi m : Nat) : List ruleguardReport :=
  if hi - lo > 40 then
    let s := (hi - lo) / 8
    let l1 := medianOfThree l lo (lo + s) (lo + 2 * s)
    let l2 := medianOfThree l1 m (m - s) (m + s)
    medianOfThree l2 (hi - 1) (hi - 1 - s) (hi - 1 - 2 * s)
  else l

/-- The duplicate test of `doPivot`: probes up to three positions for
equality with the pivot, adjusting `b`, `c` and the data, and returns the
updated `protect` flag. -/
def dupCheck (l : List ruleguardReport) (lo hi m pivot b c : Nat) :
    List ruleguardReport × Nat × Nat × Bool :=
  if ¬ (hi - c < 5) ∧ hi - c < (hi - lo) / 4 then
    let t1 :=
      if ¬ msgLt (getI l pivot) (getI l (hi - 1)) then (swp l c (hi - 1), c + 1, 1)
      else (l, c, (0 : Nat))
    let l1 := t1.1
    let c1 := t1.2.1
    let dups1 := t1.2.2
    let t2 :=
      if ¬ msgLt (getI l1 (b - 1)) (getI l1 pivot) then (b - 1, dups1 + 1) else (b, dups1)
    let b2 := t2.1
    let dups2 := t2.2
    let t3 :=
      if ¬ msgLt (getI l1 m) (getI l1 pivot) then (swp l1 m (b2 - 1), b2 - 1, dups2 + 1)
      else (l1, b2, dups2)
    (t3.1, t3.2.1, c1, decide (t3.2.2 > 1))
  else (l, b, c, decide (hi - c < 5))

/-- Go `doPivot(data, lo, hi)`, returning the modified data together with
`(midlo, midhi)`. -/
def doPivotGo (l : List ruleguardReport) (lo hi : Nat) :
    List ruleguardReport × Nat × Nat :=
  let m := (lo + hi) / 2
  let l1 := ninther l lo hi m
  let l2 := medianOfThree l1 lo m (hi - 1)
  let pivot := lo
  let a := advanceA (hi + 1) l2 (lo + 1) (hi - 1) pivot
  let r := partLoop (hi + 1) l2 a (hi - 1) pivot
  let d := dupCheck r.1 lo hi m pivot r.2.1 r.2.2
  let e :=
    if d.2.2.2 then
      let r2 := protLoop (hi + 1) d.1 a d.2.1 pivot
      (r2.1, r2.2.2)
    else (d.1, d.2.1)
  (swp e.1 pivot (e.2 - 1), e.2 - 1, d.2.2.1)

/-- Go `maxDepth(n)`: `2 *` the number of halvings needed to reach zero.
The fuel `n + 1` always dominates the number of iterations. -/
def mdAux : Nat → Nat → Nat
  | 0, _ => 0
  | fuel + 1, n => if n = 0 then 0 else 1 + mdAux fuel (n / 2)

/-- Go `maxDepth(n)`. -/
def maxDepthGo (n : Nat) : Nat := 2 * mdAux (n + 1) n

/-- Go `quickSort(data, a, b, maxDepth)`.  The `for b-a > 12` loop together
with the recursion on the smaller half is expressed as fuel-indexed
recursion; a fuel of `b - a + 1` is always sufficient because every recursive
call and every loop continuation strictly shrinks the interval. -/
def quickSortGo : Nat → List ruleguardReport → Nat → Nat → Nat → List ruleguardReport
  | 0, l, _, _, _ => l
  | fuel + 1, l, a, b, maxd =>
    if b - a > 12 then
      if maxd = 0 then heapSortGo l a b
      else
        let p := doPivotGo l a b
        let mlo := p.2.1
        let mhi := p.2.2
        if mlo - a < b - mhi then
          quickSortGo fuel (quickSortGo fuel p.1 a mlo (maxd - 1)) mhi b (maxd - 1)
        else
          quickSortGo fuel (quickSortGo fuel p.1 mhi b (maxd - 1)) a mlo (maxd - 1)
    else if b - a > 1 then insertionSortGo (shellGo l a b) a b
    else l

/-- The call `sort.Slice(reports, func(i, j int) bool { return
reports[i].message < reports[j].message })` at lines 199-201 of the source. -/
def sortSliceGo (l : List ruleguardReport) : List ruleguardReport :=
  quickSortGo (l.length + 1) l 0 l.length (maxDepthGo l.length)

/-- Stable insertion of a report into a message-sorted list, keeping it after
every element whose message is less than or equal to its own. -/
def insR : List ruleguardReport → ruleguardReport → List ruleguardReport
  | [], x => [x]
  | y :: t, x => if msgLt x y then x :: y :: t else y :: insR t x

/-- Modelled from the spec (section 4.4): the Diagnostic Orderer as the spec
words it, a stable sort on the message text, ties keeping production order.
Used only to compare the behaviour of the code against the specified one. -/
def specStableSort (l : List ruleguardReport) : List ruleguardReport :=
  l.foldl insR []

/-!
String helpers.  `goSplitComma` models `strings.Split(s, ",")` and `goTrim`
models `strings.TrimSpace(s)`; both are written as structural recursions on
the character list so that concrete instances reduce inside the kernel.
-/

/-- Split a character list on commas; like Go, the empty input yields one
empty field. -/
def splitOnCommaChars : List Char → List (List Char)
  | [] => [[]]
  | c :: rest =>
    let r := splitOnCommaChars rest
    if c = ',' then [] :: r
    else
      match r with
      | [] => [[c]]
      | h :: t => (c :: h) :: t

/-- Go `strings.Split(s, ",")`. -/
def goSplitComma (s : String) : List String :=
  (splitOnCommaChars s.data).map (fun cs => ⟨cs⟩)

/-- Go `strings.TrimSpace(s)`. -/
def goTrim (s : String) : String :=
  ⟨((s.data.dropWhile Char.isWhitespace).reverse.dropWhile Char.isWhitespace).reverse⟩

/-!
Error classifier (`parseErrorHandler`, `newErrorHandler`).  A load-time error
is modelled by the one attribute the classifier inspects: whether
`errors.As(err, **ruleguard.ImportError)` holds.
-/

/-- A rule-load error as the classifier sees it: `isImport` says whether the
error is (or wraps) a `ruleguard.ImportError`. -/
structure LoadError where
  isImport : Bool
deriving DecidableEq, Repr

/-- The three predicates of the `failOnErrorPredicates` map at lines 75-79:
`dsl` matches any non-import error, `import` matches import errors, `all`
matches everything.  Names outside the map never occur in a constructed
handler. -/
def predOf (k : String) (e : LoadError) : Bool :=
  if k = "dsl" then !e.isImport
  else if k = "import" then e.isImport
  else if k = "all" then true
  else false

/-- The keys of the `failOnErrorPredicates` map (Go iterates the map in an
unspecified order; the model fixes the declaration order of the literal). -/
def supportedValuesList : List String := ["dsl", "import", "all"]

/-- The `parseErrorHandler` struct: `failureConditions` is a map keyed by
policy name, modelled by its (deduplicated) key list since every key
determines its predicate. -/
structure parseErrorHandler where
  failureConditions : List String
deriving DecidableEq, Repr

/-- Lines 62-69: `failOnParseError` returns true if at least one configured
predicate accepts the error. -/
def failOnParseError (h : parseErrorHandler) (e : LoadError) : Bool :=
  h.failureConditions.any (fun k => predOf k e)

/-- Construction-time errors of `newRuleguardChecker`, carrying the data the
corresponding `fmt.Errorf` formats into its message. -/
inductive InitError where
  /-- Lines 91-92: unknown `failOnError` token, message listing the supported
  values. -/
  | invalidFlag (k : String) (supported : List String)
  /-- Line 129: a pattern matched no file. -/
  | noFileMatching (pattern : String)
  /-- Lines 135 and 141: a fatal read or load error. -/
  | fatal (e : LoadError)
deriving DecidableEq, Repr

/-- The loop of `newErrorHandler` over the comma-separated flag entries:
skip empty entries, record recognized names, fail on the first unknown
name. -/
def newErrorHandlerGo : List String → List String → Except InitError (List String)
  | [], acc => .ok acc
  | k :: rest, acc =>
    if k = "" then newErrorHandlerGo rest acc
    else if k = "dsl" ∨ k = "import" ∨ k = "all" then
      newErrorHandlerGo rest (if k ∈ acc then acc else acc ++ [k])
    else .error (.invalidFlag k supportedValuesList)

/-- Lines 71-96: `newErrorHandler(failOnErrorFlag)`. -/
def newErrorHandler (failOnErrorFlag : String) : Except InitError parseErrorHandler :=
  match newErrorHandlerGo (goSplitComma failOnErrorFlag) [] with
  | .error e => .error e
  | .ok ks => .ok ⟨ks⟩

/-!
Rule set resolver (`newRuleguardChecker`).  The filesystem and the ruleguard
engine are external collaborators; they enter the model as an abstract
environment `FS` of pure functions, exactly at the interface the Go code
calls: `filepath.Glob`, `ioutil.ReadFile`, `engine.Load`.
-/

/-- The environment of one construction run: glob expansion (error means
`ErrBadPattern`), file reads, and the verdict of `engine.Load` for a given
file name and content (`none` = loaded fine). -/
structure FS where
  glob : String → Except Unit (List String)
  read : String → Except LoadError String
  engineLoad : String → String → Option LoadError

/-- The mutable state of the loading loop: the rule files the engine has
accepted so far, and the `loaded` counter. -/
structure LoadState where
  rules : List String
  loaded : Nat
deriving DecidableEq, Repr

/-- Lines 131-146: the inner loop over the files matched by one pattern.
Mirrors the source faithfully: after a non-fatal read error the code does
not skip the file but falls through and calls `engine.Load` with nil data
(modelled as the empty string), and `loaded++` runs even when `engine.Load`
failed non-fatally, because the loop body has no `continue`. -/
def loadFiles (fs : FS) (h : parseErrorHandler) :
    List String → LoadState → Except InitError LoadState
  | [], st => .ok st
  | f :: rest, st =>
    match (match fs.read f with
           | .error e =>
             if failOnParseError h e then Except.error (InitError.fatal e) else Except.ok ""
           | .ok d => Except.ok d : Except InitError String) with
    | .error er => .error er
    | .ok data =>
      match fs.engineLoad f data with
      | some e =>
        if failOnParseError h e then .error (.fatal e)
        else loadFiles fs h rest ⟨st.rules, st.loaded + 1⟩
      | none => loadFiles fs h rest ⟨st.rules ++ [f], st.loaded + 1⟩

/-- Lines 121-147: the outer loop over the comma-separated patterns.
A malformed glob is logged and skipped; a pattern matching no file aborts
with an error naming the trimmed pattern. -/
def loadPatterns (fs : FS) (h : parseErrorHandler) :
    List String → LoadState → Except InitError LoadState
  | [], st => .ok st
  | p :: rest, st =>
    match fs.glob (goTrim p) with
    | .error _ => loadPatterns fs h rest st
    | .ok [] => .error (.noFileMatching (goTrim p))
    | .ok (f :: fsRest) =>
      match loadFiles fs h (f :: fsRest) st with
      | .error e => .error e
      | .ok st1 => loadPatterns fs h rest st1

/-- The checker (`ruleguardChecker` struct): the debug group and the optional
engine, the engine being the list of successfully loaded rule files. -/
structure ruleguardChecker where
  debugGroup : String
  engine : Option (List String)
deriving DecidableEq, Repr

/-- Lines 98-153: `newRuleguardChecker`.  Empty `rules` returns at once with
no engine; otherwise the error-handler flag is validated, the patterns are
resolved, and the engine is bound iff the `loaded` counter is non-zero. -/
def newRuleguardChecker (fs : FS) (rulesFlag failOnErrorFlag debugFlag : String) :
    Except InitError ruleguardChecker :=
  if rulesFlag = "" then .ok ⟨debugFlag, none⟩
  else
    match newErrorHandler failOnErrorFlag with
    | .error e => .error e
    | .ok h =>
      match loadPatterns fs h (goSplitComma rulesFlag) ⟨[], 0⟩ with
      | .error e => .error e
      | .ok st => .ok ⟨debugFlag, if st.loaded ≠ 0 then some st.rules else none⟩

/-!
Checker adapter (`WalkFile`).  The engine run over one source unit is an
external collaborator; its observable behaviour is the list of findings the
`Report` callback produced, in production order, together with the optional
execution error of `engine.Run`.  The host diagnostic sink records the
`ctx.Warn` calls in order.
-/

/-- One `ctx.Warn` call: either the execution-error warning attached to the
whole file (line 196) or one finding (line 203). -/
inductive WarnEvent where
  | execError (msg : String)
  | finding (node : Nat) (message : String)
deriving DecidableEq, Repr

/-- Whether a warning is the execution-error warning. -/
def isExecWarn : WarnEvent → Bool
  | .execError _ => true
  | .finding _ _ => false

/-- Lines 162-205: `WalkFile`.  `run` is the observable outcome of
`c.engine.Run` on this source unit: the findings collected by the `Report`
callback in production order, and the error value of the run.  With no
engine bound the walk returns immediately; otherwise the execution error (if
any) is warned first, then the findings are emitted sorted by
`sort.Slice`. -/
def walkFile (c : ruleguardChecker) (run : List ruleguardReport × Option String) :
    List WarnEvent :=
  match c.engine with
  | none => []
  | some _ =>
    (match run.2 with
     | some err => [WarnEvent.execError err]
     | none => [])
    ++ (sortSliceGo run.1).map (fun r => WarnEvent.finding r.node r.message)

/-- A concrete environment whose globs match nothing: used to exercise the
zero-match and no-loading paths on concrete inputs. -/
def fsEmpty : FS :=
  { glob := fun _ => .ok []
    read := fun _ => .error ⟨false⟩
    engineLoad := fun _ _ => none }

/-- A concrete environment with one rule file whose engine load fails with a
DSL (non-import) error: the scenario of spec section 8, Scenario C. -/
def fsC2 : FS :=
  { glob := fun p => if p = "rules.go" then .ok ["rules.go"] else .ok []
    read := fun _ => .ok "content"
    engineLoad := fun _ _ => some ⟨false⟩ }

/-- A concrete environment whose glob expansion always reports a malformed
pattern. -/
def fsBadGlob : FS :=
  { glob := fun _ => .error ()
    read := fun _ => .ok ""
    engineLoad := fun _ _ => none }

/-!
Theorems.  First a layer of helper lemmas: order properties of the
comparator, permutation and length facts for every component of the sort,
and the characterization of the short-range path of `quickSort` as a stable
insertion sort.
-/

theorem strLtB_irrefl : ∀ cs : List Char, strLtB cs cs = false
  | [] => rfl
  | c :: cs => by simp [strLtB, strLtB_irrefl cs]

theorem strLtB_trans : ∀ as bs cs : List Char,
    strLtB as bs = true → strLtB bs cs = true → strLtB as cs = true := by
  intro as
  induction as with
  | nil =>
    intro bs cs h1 h2
    cases bs with
    | nil => exact h2
    | cons b bs' =>
      cases cs with
      | nil => simp [strLtB] at h2
      | cons c cs' => simp [strLtB]
  | cons a as' ih =>
    intro bs cs h1 h2
    cases bs with
    | nil => simp [strLtB] at h1
    | cons b bs' =>
      cases cs with
      | nil => simp [strLtB] at h2
      | cons c cs' =>
        simp only [strLtB] at h1 h2 ⊢
        split_ifs at h1 h2 ⊢ <;> first | rfl | omega | exact ih bs' cs' h1 h2

theorem strLtB_nlt_trans : ∀ as bs cs : List Char,
    strLtB as bs = false → strLtB bs cs = false → strLtB as cs = false := by
  intro as
  induction as with
  | nil =>
    intro bs cs h1 h2
    cases bs with
    | nil => exact h2
    | cons b bs' => simp [strLtB] at h1
  | cons a as' ih =>
    intro bs cs h1 h2
    cases cs with
    | nil => simp [strLtB]
    | cons c cs' =>
      cases bs with
      | nil => simp [strLtB] at h2
      | cons b bs' =>
        simp only [strLtB] at h1 h2 ⊢
        split_ifs at h1 h2 ⊢ <;> first | rfl | omega | exact ih bs' cs' h1 h2

theorem strLtB_asymm {as bs : List Char} (h : strLtB as bs = true) : strLtB bs as = false := by
  by_contra hc
  have h2 : strLtB bs as = true := by
    cases hb : strLtB bs as with
    | true => rfl
    | false => exact absurd hb hc
  have := strLtB_trans as bs as h h2
  rw [strLtB_irrefl] at this
  simp at this

theorem msgLt_asymm {x y : ruleguardReport} (h : msgLt x y) : msgLe x y :=
  by simpa [msgLt, msgLe] using strLtB_asymm h

theorem msgLt_trans {x y z : ruleguardReport} (h1 : msgLt x y) (h2 : msgLt y z) : msgLt x z :=
  strLtB_trans _ _ _ h1 h2

theorem msgLe_trans {x y z : ruleguardReport} (h1 : msgLe y x) (h2 : msgLe z y) : msgLe z x := by
  simp only [msgLe, msgLt] at h1 h2 ⊢
  intro hc
  have e1 : strLtB x.message.data y.message.data = false := by
    cases hb : strLtB x.message.data y.message.data with
    | true => exact absurd hb h1
    | false => rfl
  have e2 : strLtB y.message.data z.message.data = false := by
    cases hb : strLtB y.message.data z.message.data with
    | true => exact absurd hb h2
    | false => rfl
  have := strLtB_nlt_trans _ _ _ e1 e2
  rw [hc] at this
  simp at this

theorem getI_cons_succ (x : ruleguardReport) (t : List ruleguardReport) (n : Nat) :
    getI (x :: t) (n + 1) = getI t n := by
  simp [getI]

theorem getI_cons_zero (x : ruleguardReport) (t : List ruleguardReport) :
    getI (x :: t) 0 = x := by
  simp [getI]

theorem swp_length (l : List ruleguardReport) (i j : Nat) :
    (swp l i j).length = l.length := by
  unfold swp
  split <;> simp

theorem getI_cons_perm_set (t : List ruleguardReport) :
    ∀ (k : Nat) (x : ruleguardReport), k < t.length →
      List.Perm (getI t k :: t.set k x) (x :: t) := by
  induction t with
  | nil => intro k x h; simp at h
  | cons y t' ih =>
    intro k x h
    cases k with
    | zero =>
      rw [getI_cons_zero, List.set_cons_zero]
      exact List.Perm.swap x y t'
    | succ m =>
      rw [getI_cons_succ, List.set_cons_succ]
      have hm : m < t'.length := by simpa using h
      exact (List.Perm.swap y (getI t' m) (t'.set m x)).trans
        (((ih m x hm).cons y).trans (List.Perm.swap x y t'))

theorem set_set_perm (l : List ruleguardReport) :
    ∀ (i j : Nat), i < j → j < l.length →
      List.Perm ((l.set i (getI l j)).set j (getI l i)) l := by
  induction l with
  | nil => intro i j _ h; simp at h
  | cons x t ih =>
    intro i j hij hj
    cases i with
    | zero =>
      obtain ⟨k, rfl⟩ : ∃ k, j = k + 1 := ⟨j - 1, by omega⟩
      rw [getI_cons_succ, getI_cons_zero, List.set_cons_zero, List.set_cons_succ]
      exact getI_cons_perm_set t k x (by simpa using hj)
    | succ m =>
      obtain ⟨k, rfl⟩ : ∃ k, j = k + 1 := ⟨j - 1, by omega⟩
      rw [getI_cons_succ, getI_cons_succ, List.set_cons_succ, List.set_cons_succ]
      exact (ih m k (by omega) (by simpa using hj)).cons x

theorem swp_perm (l : List ruleguardReport) (i j : Nat) : List.Perm (swp l i j) l := by
  unfold swp
  split
  case isFalse => exact List.Perm.refl l
  case isTrue h =>
    rcases Nat.lt_trichotomy i j with hij | rfl | hji
    · exact set_set_perm l i j hij h.2
    · have : l.set i (getI l i) = l := by
        apply List.ext_getElem
        · simp
        · intro n h1 h2
          rw [List.getElem_set]
          split
          case isTrue he =>
            subst he
            have : getI l i = l[i] := by
              simp [getI, List.getD_eq_getElem?_getD, List.getElem?_eq_getElem h2]
            rw [this]
          case isFalse => rfl
      rw [List.set_set, this]
    · rw [List.set_comm _ _ _ (by omega)]
      exact set_set_perm l j i hji h.1

theorem bubble_perm (a : Nat) : ∀ (j : Nat) (l : List ruleguardReport),
    List.Perm (bubble l a j) l := by
  intro j
  induction j with
  | zero => intro l; exact List.Perm.refl l
  | succ m ih =>
    intro l
    rw [bubble]
    split
    case isTrue => exact (ih _).trans (swp_perm l (m + 1) m)
    case isFalse => exact List.Perm.refl l

theorem insSortA_perm : ∀ (fuel : Nat) (l : List ruleguardReport) (a i b : Nat),
    List.Perm (insSortA fuel l a i b) l := by
  intro fuel
  induction fuel with
  | zero => intro l a i b; exact List.Perm.refl l
  | succ f ih =>
    intro l a i b
    rw [insSortA]
    split
    case isTrue => exact (ih _ _ _ _).trans (bubble_perm a i l)
    case isFalse => exact List.Perm.refl l

theorem shellA_perm : ∀ (fuel : Nat) (l : List ruleguardReport) (i b : Nat),
    List.Perm (shellA fuel l i b) l := by
  intro fuel
  induction fuel with
  | zero => intro l i b; exact List.Perm.refl l
  | succ f ih =>
    intro l i b
    rw [shellA]
    split
    case isTrue =>
      refine (ih _ _ _).trans ?_
      split
      case isTrue => exact swp_perm l i (i - 6)
      case isFalse => exact List.Perm.refl l
    case isFalse => exact List.Perm.refl l

theorem siftDownGo_perm : ∀ (fuel : Nat) (l : List ruleguardReport) (root hi first : Nat),
    List.Perm (siftDownGo fuel l root hi first) l := by
  intro fuel
  induction fuel with
  | zero => intro l root hi first; exact List.Perm.refl l
  | succ f ih =>
    intro l root hi first
    rw [siftDownGo]
    dsimp only
    split
    case isTrue => exact List.Perm.refl l
    case isFalse =>
      split <;> split <;>
        first
          | exact List.Perm.refl l
          | exact (ih _ _ _ _).trans (swp_perm l _ _)

theorem heapBuild_perm (first hi : Nat) : ∀ (k : Nat) (l : List ruleguardReport),
    List.Perm (heapBuild l first hi k) l := by
  intro k
  induction k with
  | zero => intro l; exact List.Perm.refl l
  | succ m ih =>
    intro l
    rw [heapBuild]
    exact (ih _).trans (siftDownGo_perm _ _ _ _ _)

theorem heapPop_perm (first : Nat) : ∀ (k : Nat) (l : List ruleguardReport),
    List.Perm (heapPop l first k) l := by
  intro k
  induction k with
  | zero => intro l; exact List.Perm.refl l
  | succ m ih =>
    intro l
    rw [heapPop]
    exact (ih _).trans ((siftDownGo_perm _ _ _ _ _).trans (swp_perm _ _ _))

theorem heapSortGo_perm (l : List ruleguardReport) (a b : Nat) :
    List.Perm (heapSortGo l a b) l := by
  unfold heapSortGo
  exact (heapPop_perm _ _ _).trans (heapBuild_perm _ _ _ _)

theorem medianOfThree_perm (l : List ruleguardReport) (m1 m0 m2 : Nat) :
    List.Perm (medianOfThree l m1 m0 m2) l := by
  unfold medianOfThree
  dsimp only
  split_ifs <;>
    first
      | exact List.Perm.refl l
      | exact swp_perm l _ _
      | exact (swp_perm _ _ _).trans (swp_perm l _ _)
      | exact ((swp_perm _ _ _).trans (swp_perm _ _ _)).trans (swp_perm l _ _)

theorem partLoop_perm : ∀ (fuel : Nat) (l : List ruleguardReport) (b c pivot : Nat),
    List.Perm (partLoop fuel l b c pivot).1 l := by
  intro fuel
  induction fuel with
  | zero => intro l b c pivot; exact List.Perm.refl l
  | succ f ih =>
    intro l b c pivot
    rw [partLoop]
    split
    case isTrue => exact List.Perm.refl l
    case isFalse => exact (ih _ _ _ _).trans (swp_perm l _ _)

theorem protLoop_perm : ∀ (fuel : Nat) (l : List ruleguardReport) (a b pivot : Nat),
    List.Perm (protLoop fuel l a b pivot).1 l := by
  intro fuel
  induction fuel with
  | zero => intro l a b pivot; exact List.Perm.refl l
  | succ f ih =>
    intro l a b pivot
    rw [protLoop]
    split
    case isTrue => exact List.Perm.refl l
    case isFalse => exact (ih _ _ _ _).trans (swp_perm l _ _)

theorem ninther_perm (l : List ruleguardReport) (lo hi m : Nat) :
    List.Perm (ninther l lo hi m) l := by
  unfold ninther
  split
  case isTrue =>
    exact ((medianOfThree_perm _ _ _ _).trans (medianOfThree_perm _ _ _ _)).trans
      (medianOfThree_perm _ _ _ _)
  case isFalse => exact List.Perm.refl l

theorem dupCheck_perm (l : List ruleguardReport) (lo hi m pivot b c : Nat) :
    List.Perm (dupCheck l lo hi m pivot b c).1 l := by
  unfold dupCheck
  dsimp only
  split
  case isTrue =>
    split_ifs <;> dsimp only <;>
      first
        | exact List.Perm.refl l
        | exact swp_perm l _ _
        | exact (swp_perm _ _ _).trans (swp_perm l _ _)
  case isFalse => exact List.Perm.refl l

theorem doPivotGo_perm (l : List ruleguardReport) (lo hi : Nat) :
    List.Perm (doPivotGo l lo hi).1 l := by
  unfold doPivotGo
  dsimp only
  refine (swp_perm _ _ _).trans ?_
  split <;> dsimp only
  case isTrue =>
    exact ((protLoop_perm _ _ _ _ _).trans (dupCheck_perm _ _ _ _ _ _ _)).trans
      ((partLoop_perm _ _ _ _ _).trans
        ((medianOfThree_perm _ _ _ _).trans (ninther_perm _ _ _ _)))
  case isFalse =>
    exact ((dupCheck_perm _ _ _ _ _ _ _).trans
      ((partLoop_perm _ _ _ _ _).trans
        ((medianOfThree_perm _ _ _ _).trans (ninther_perm _ _ _ _))))

theorem quickSortGo_perm : ∀ (fuel : Nat) (l : List ruleguardReport) (a b maxd : Nat),
    List.Perm (quickSortGo fuel l a b maxd) l := by
  intro fuel
  induction fuel with
  | zero => intro l a b maxd; exact List.Perm.refl l
  | succ f ih =>
    intro l a b maxd
    rw [quickSortGo]
    split
    case isTrue =>
      split
      case isTrue => exact heapSortGo_perm l a b
      case isFalse =>
        dsimp only
        split
        case isTrue => exact ((ih _ _ _ _).trans (ih _ _ _ _)).trans (doPivotGo_perm l a b)
        case isFalse => exact ((ih _ _ _ _).trans (ih _ _ _ _)).trans (doPivotGo_perm l a b)
    case isFalse =>
      split
      case isTrue => exact (insSortA_perm _ _ _ _ _).trans (shellA_perm _ _ _ _)
      case isFalse => exact List.Perm.refl l

/-- The emitted order is always a permutation of the collected findings. -/
theorem sortSliceGo_perm (l : List ruleguardReport) : List.Perm (sortSliceGo l) l :=
  quickSortGo_perm _ _ _ _ _

theorem sortSliceGo_length (l : List ruleguardReport) :
    (sortSliceGo l).length = l.length :=
  (sortSliceGo_perm l).length_eq

theorem insR_length (s : List ruleguardReport) (x : ruleguardReport) :
    (insR s x).length = s.length + 1 := by
  induction s with
  | nil => rfl
  | cons y t ih =>
    rw [insR]
    split
    case isTrue => simp
    case isFalse => simp [ih]

theorem insR_perm (s : List ruleguardReport) (x : ruleguardReport) :
    List.Perm (insR s x) (x :: s) := by
  induction s with
  | nil => exact List.Perm.refl _
  | cons y t ih =>
    rw [insR]
    split
    case isTrue => exact List.Perm.refl _
    case isFalse => exact (ih.cons y).trans (List.Perm.swap x y t)

theorem insR_sorted {s : List ruleguardReport} (x : ruleguardReport)
    (hs : List.Pairwise msgLe s) : List.Pairwise msgLe (insR s x) := by
  induction s with
  | nil => simp [insR]
  | cons y t ih =>
    rw [insR]
    rcases hs with _ | ⟨hy, ht⟩
    split
    case isTrue hlt =>
      refine List.Pairwise.cons ?_ (List.Pairwise.cons hy ht)
      intro z hz
      rcases List.mem_cons.mp hz with rfl | hz2
      · exact msgLt_asymm hlt
      · intro hzx
        exact hy z hz2 (msgLt_trans hzx hlt)
    case isFalse hge =>
      refine List.Pairwise.cons ?_ (ih ht)
      intro z hz
      have hz2 : z ∈ x :: t := (insR_perm t x).mem_iff.mp hz
      rcases List.mem_cons.mp hz2 with rfl | hz3
      · exact hge
      · exact hy z hz3

theorem insR_append_lt {x y : ruleguardReport} (hlt : msgLt x y) :
    ∀ s : List ruleguardReport, insR (s ++ [y]) x = insR s x ++ [y] := by
  intro s
  induction s with
  | nil => simp [insR, hlt]
  | cons z t ih =>
    simp only [List.cons_append, insR]
    split
    case isTrue => simp
    case isFalse => simp [ih]

theorem insR_ge_all {x : ruleguardReport} :
    ∀ s : List ruleguardReport, (∀ z ∈ s, ¬ msgLt x z) → insR s x = s ++ [x] := by
  intro s
  induction s with
  | nil => simp [insR]
  | cons z t ih =>
    intro h
    rw [insR, if_neg (h z (by simp))]
    simp only [List.cons_append, List.cons.injEq, true_and]
    exact ih (fun w hw => h w (by simp [hw]))

theorem getI_append_cons (s : List ruleguardReport) (y : ruleguardReport)
    (r : List ruleguardReport) : getI (s ++ y :: r) s.length = y := by
  induction s with
  | nil => simp [getI]
  | cons a t ih => simpa [getI_cons_succ] using ih

theorem set_append_plus (s : List ruleguardReport) :
    ∀ (t : List ruleguardReport) (k : Nat) (v : ruleguardReport),
      (s ++ t).set (s.length + k) v = s ++ t.set k v := by
  induction s with
  | nil => intro t k v; simp
  | cons a s' ih =>
    intro t k v
    have h1 : (a :: s').length + k = (s'.length + k) + 1 := by
      simp only [List.length_cons]; omega
    rw [h1]
    simp only [List.cons_append, List.set_cons_succ]
    rw [ih]

theorem swp_adjacent (s : List ruleguardReport) (y x : ruleguardReport)
    (r : List ruleguardReport) :
    swp (s ++ y :: x :: r) (s.length + 1) s.length = s ++ x :: y :: r := by
  unfold swp
  rw [if_pos (by
    refine ⟨?_, ?_⟩ <;> (simp only [List.length_append, List.length_cons]; omega))]
  have h1 : getI (s ++ y :: x :: r) s.length = y := getI_append_cons s y (x :: r)
  have h2 : getI (s ++ y :: x :: r) (s.length + 1) = x := by
    have e : s ++ y :: x :: r = (s ++ [y]) ++ x :: r := by simp
    have hl : s.length + 1 = (s ++ [y]).length := by simp
    rw [e, hl]
    exact getI_append_cons (s ++ [y]) x r
  rw [h1, h2]
  have e1 : (s ++ y :: x :: r).set (s.length + 1) y = s ++ y :: y :: r := by
    rw [set_append_plus s (y :: x :: r) 1 y]
    rfl
  rw [e1]
  have h0 : s.length = s.length + 0 := rfl
  rw [h0, set_append_plus s (y :: y :: r) 0 x]
  rfl

theorem bubble_insert (x : ruleguardReport) :
    ∀ (s r : List ruleguardReport), List.Pairwise msgLe s →
      bubble (s ++ x :: r) 0 s.length = insR s x ++ r := by
  intro s
  induction s using List.reverseRecOn with
  | nil => intro r _; simp [bubble, insR]
  | append_singleton s' y ih =>
    intro r hs
    have hlen : (s' ++ [y]).length = s'.length + 1 := by simp
    have hform : (s' ++ [y]) ++ x :: r = s' ++ y :: x :: r := by simp
    rw [hlen, hform, bubble]
    have hget1 : getI (s' ++ y :: x :: r) (s'.length + 1) = x := by
      have e : s' ++ y :: x :: r = (s' ++ [y]) ++ x :: r := by simp
      have hl : s'.length + 1 = (s' ++ [y]).length := by simp
      rw [e, hl]
      exact getI_append_cons (s' ++ [y]) x r
    have hget2 : getI (s' ++ y :: x :: r) s'.length = y := getI_append_cons s' y (x :: r)
    rw [hget1, hget2]
    have hs' : List.Pairwise msgLe s' := hs.sublist (by simp)
    by_cases hlt : msgLt x y
    · rw [if_pos ⟨by omega, hlt⟩, swp_adjacent s' y x r, ih (y :: r) hs']
      rw [insR_append_lt hlt s']
      simp
    · rw [if_neg (by intro hc; exact hlt hc.2)]
      have hall : ∀ z ∈ s' ++ [y], ¬ msgLt x z := by
        intro z hz
        rcases List.mem_append.mp hz with hz' | hz'
        · have hzy : msgLe z y := by
            have hp := List.pairwise_append.mp hs
            exact hp.2.2 z hz' y (by simp)
          exact msgLe_trans hlt hzy
        · have : z = y := by simpa using hz'
          subst this
          exact hlt
      rw [insR_ge_all (s' ++ [y]) hall]
      simp

theorem insSortA_foldl :
    ∀ (r s : List ruleguardReport) (fuel : Nat), r.length < fuel →
      List.Pairwise msgLe s →
      insSortA fuel (s ++ r) 0 s.length (s.length + r.length) = List.foldl insR s r := by
  intro r
  induction r with
  | nil =>
    intro s fuel hf _
    obtain ⟨f, rfl⟩ : ∃ f, fuel = f + 1 := ⟨fuel - 1, by omega⟩
    rw [insSortA, if_neg (by simp)]
    simp
  | cons x r' ih =>
    intro s fuel hf hs
    obtain ⟨f, rfl⟩ : ∃ f, fuel = f + 1 := ⟨fuel - 1, by omega⟩
    rw [insSortA, if_pos (by simp only [List.length_cons]; omega)]
    rw [bubble_insert x s r' hs]
    have hlen : s.length + 1 = (insR s x).length := (insR_length s x).symm
    have hlen2 : s.length + (x :: r').length = (insR s x).length + r'.length := by
      rw [insR_length]; simp; omega
    rw [hlen2]
    have hstep : bubble (s ++ x :: r') 0 s.length = insR s x ++ r' :=
      bubble_insert x s r' hs
    calc insSortA f (insR s x ++ r') 0 (s.length + 1) ((insR s x).length + r'.length)
        = insSortA f (insR s x ++ r') 0 (insR s x).length ((insR s x).length + r'.length) := by
          rw [hlen]
      _ = List.foldl insR (insR s x) r' := ih (insR s x) f (by simp at hf; omega)
          (insR_sorted x hs)
      _ = List.foldl insR s (x :: r') := rfl

theorem foldl_insR_sorted :
    ∀ (r s : List ruleguardReport), List.Pairwise msgLe s →
      List.Pairwise msgLe (List.foldl insR s r) := by
  intro r
  induction r with
  | nil => intro s hs; exact hs
  | cons x r' ih => intro s hs; exact ih (insR s x) (insR_sorted x hs)

theorem foldl_insR_perm :
    ∀ (r s : List ruleguardReport), List.Perm (List.foldl insR s r) (s ++ r) := by
  intro r
  induction r with
  | nil => intro s; simp
  | cons x r' ih =>
    intro s
    exact (ih (insR s x)).trans
      (((insR_perm s x).append_right r').trans List.perm_middle.symm)

/-- The stable sort modelled from the spec is sorted by message. -/
theorem specStableSort_sorted (l : List ruleguardReport) :
    List.Pairwise msgLe (specStableSort l) :=
  foldl_insR_sorted l [] (by simp)

/-- The stable sort modelled from the spec permutes its input. -/
theorem specStableSort_perm (l : List ruleguardReport) :
    List.Perm (specStableSort l) l := by
  simpa using foldl_insR_perm l []

/-- Go insertion sort over the whole list is exactly the stable sort. -/
theorem insertionSortGo_whole (l : List ruleguardReport) :
    insertionSortGo l 0 l.length = specStableSort l := by
  cases l with
  | nil => rfl
  | cons x t =>
    unfold insertionSortGo specStableSort
    have h1 : (x :: t).length - 0 = t.length + 1 := by simp
    have hb : (x :: t).length = [x].length + t.length := by
      simp only [List.length_cons, List.length_nil]
      omega
    rw [h1, hb]
    exact insSortA_foldl t [x] (t.length + 1) (by omega) (by simp)

theorem shellA_length : ∀ (fuel : Nat) (l : List ruleguardReport) (i b : Nat),
    (shellA fuel l i b).length = l.length := by
  intro fuel
  induction fuel with
  | zero => intro l i b; rfl
  | succ f ih =>
    intro l i b
    rw [shellA]
    split
    case isTrue =>
      rw [ih]
      split
      case isTrue => exact swp_length l i (i - 6)
      case isFalse => rfl
    case isFalse => rfl

/-- For at most twelve elements `sort.Slice` is the shell pass followed by
the insertion sort (empty and singleton slices are untouched). -/
theorem sortSliceGo_le12 (l : List ruleguardReport) (h : l.length ≤ 12) :
    sortSliceGo l =
      if l.length > 1 then insertionSortGo (shellGo l 0 l.length) 0 l.length else l := by
  unfold sortSliceGo
  rw [quickSortGo]
  rw [if_neg (by omega)]
  simp

/-- For at most twelve elements the emitted order is sorted by message. -/
theorem sortSliceGo_sorted_le12 (l : List ruleguardReport) (h : l.length ≤ 12) :
    List.Pairwise msgLe (sortSliceGo l) := by
  rw [sortSliceGo_le12 l h]
  split
  case isTrue h1 =>
    have hlen : l.length = (shellGo l 0 l.length).length := by
      unfold shellGo
      exact (shellA_length _ _ _ _).symm
    nth_rewrite 2 [hlen]
    rw [insertionSortGo_whole]
    exact specStableSort_sorted _
  case isFalse h1 =>
    cases l with
    | nil => simp
    | cons x t =>
      cases t with
      | nil => simp
      | cons y t' => simp at h1

theorem getI_eq_getElem (l : List ruleguardReport) (i : Nat) (h : i < l.length) :
    getI l i = l[i] := by
  simp [getI, List.getD_eq_getElem?_getD, List.getElem?_eq_getElem h]

theorem pairwise_getI {l : List ruleguardReport} (hs : List.Pairwise msgLe l)
    {i j : Nat} (hij : i < j) (hj : j < l.length) : msgLe (getI l i) (getI l j) := by
  rw [getI_eq_getElem l i (by omega), getI_eq_getElem l j hj]
  exact List.pairwise_iff_getElem.mp hs i j (by omega) hj hij

theorem bubble_sorted_noop {l : List ruleguardReport} (hs : List.Pairwise msgLe l)
    (i : Nat) (h1 : 1 ≤ i) (h2 : i < l.length) : bubble l 0 i = l := by
  obtain ⟨j, rfl⟩ : ∃ j, i = j + 1 := ⟨i - 1, by omega⟩
  rw [bubble, if_neg]
  intro hc
  exact pairwise_getI hs (by omega) h2 hc.2

theorem insSortA_sorted_noop {l : List ruleguardReport} (hs : List.Pairwise msgLe l) :
    ∀ (fuel i : Nat), 1 ≤ i → insSortA fuel l 0 i l.length = l := by
  intro fuel
  induction fuel with
  | zero => intro i _; rfl
  | succ f ih =>
    intro i h1
    rw [insSortA]
    split
    case isTrue h2 =>
      rw [bubble_sorted_noop hs i h1 h2]
      exact ih (i + 1) (by omega)
    case isFalse => rfl

theorem shellA_sorted_noop {l : List ruleguardReport} (hs : List.Pairwise msgLe l) :
    ∀ (fuel i : Nat), 6 ≤ i → shellA fuel l i l.length = l := by
  intro fuel
  induction fuel with
  | zero => intro i _; rfl
  | succ f ih =>
    intro i h6
    rw [shellA]
    split
    case isTrue h2 =>
      rw [if_neg (pairwise_getI hs (by omega) h2)]
      exact ih (i + 1) (by omega)
    case isFalse => rfl

/-- Sorting an already message-sorted slice of at most twelve elements leaves
it unchanged. -/
theorem sortSliceGo_sorted_id {l : List ruleguardReport}
    (hs : List.Pairwise msgLe l) (h : l.length ≤ 12) : sortSliceGo l = l := by
  rw [sortSliceGo_le12 l h]
  split
  case isTrue h1 =>
    have hshell : shellGo l 0 l.length = l := by
      unfold shellGo
      exact shellA_sorted_noop hs _ _ (by omega)
    rw [hshell]
    unfold insertionSortGo
    have hsub : l.length - 0 = l.length := by omega
    rw [hsub]
    exact insSortA_sorted_noop hs _ _ (by omega)
  case isFalse => rfl

/-!
Full functional correctness of the sort: the remaining lemmas establish that
`sortSliceGo` sorts every input, at every length, through all three paths of
the algorithm (quicksort partition, heapsort fallback, shell plus insertion
sort on short ranges).  The development is index-based: `getI_swp` describes
a swap pointwise, the loop lemmas carry the classic partition and heap
invariants, and a decomposition lemma turns locality plus permutation into
a take-middle-drop splitting.
-/

theorem getI_set (l : List ruleguardReport) (i p : Nat) (x : ruleguardReport) :
    getI (l.set i x) p = if i = p ∧ p < l.length then x else getI l p := by
  by_cases hp : p < l.length
  · rw [getI_eq_getElem _ _ (by simpa using hp), getI_eq_getElem _ _ hp]
    rw [List.getElem_set]
    by_cases hip : i = p
    · rw [if_pos hip, if_pos ⟨hip, hp⟩]
    · rw [if_neg hip, if_neg (by intro hc; exact hip hc.1)]
  · rw [if_neg (by intro hc; exact hp hc.2)]
    unfold getI
    rw [List.getD_eq_getElem?_getD, List.getD_eq_getElem?_getD]
    rw [List.getElem?_eq_none (by simpa using Nat.le_of_not_lt hp),
      List.getElem?_eq_none (Nat.le_of_not_lt hp)]

theorem getI_swp (l : List ruleguardReport) (i j p : Nat)
    (hi : i < l.length) (hj : j < l.length) :
    getI (swp l i j) p =
      if p = i then getI l j else if p = j then getI l i else getI l p := by
  unfold swp
  rw [if_pos ⟨hi, hj⟩, getI_set, getI_set]
  by_cases hpi : p = i
  · by_cases hpj : p = j
    · subst hpi; subst hpj
      simp
    · subst hpi
      rw [if_neg (by intro hc; exact hpj hc.1.symm), if_pos ⟨rfl, hi⟩, if_pos rfl]
  · by_cases hpj : p = j
    · subst hpj
      rw [if_pos ⟨rfl, by simpa using hj⟩, if_neg hpi, if_pos rfl]
    · rw [if_neg (by intro hc; exact hpj hc.1.symm),
        if_neg (by intro hc; exact hpi hc.1.symm), if_neg hpi, if_neg hpj]

theorem getI_swp_other (l : List ruleguardReport) (i j p : Nat)
    (hpi : p ≠ i) (hpj : p ≠ j) : getI (swp l i j) p = getI l p := by
  unfold swp
  split
  case isTrue h => rw [getI_set, getI_set,
    if_neg (by intro hc; exact hpj hc.1.symm), if_neg (by intro hc; exact hpi hc.1.symm)]
  case isFalse => rfl

theorem getI_swp_left (l : List ruleguardReport) (i j : Nat)
    (hi : i < l.length) (hj : j < l.length) : getI (swp l i j) i = getI l j := by
  rw [getI_swp l i j i hi hj, if_pos rfl]

theorem getI_swp_right (l : List ruleguardReport) (i j : Nat)
    (hi : i < l.length) (hj : j < l.length) : getI (swp l i j) j = getI l i := by
  rw [getI_swp l i j j hi hj]
  by_cases hji : j = i
  · rw [if_pos hji]; rw [hji]
  · rw [if_neg hji, if_pos rfl]

theorem getI_oob (l : List ruleguardReport) (n : Nat) (h : l.length ≤ n) :
    getI l n = default := by
  unfold getI
  rw [List.getD_eq_getElem?_getD, List.getElem?_eq_none h]
  rfl

theorem getI_append (A B : List ruleguardReport) :
    ∀ n : Nat, getI (A ++ B) n = if n < A.length then getI A n else getI B (n - A.length) := by
  induction A with
  | nil => intro n; simp
  | cons a A2 ih =>
    intro n
    cases n with
    | zero => simp [getI_cons_zero]
    | succ k =>
      rw [List.cons_append, getI_cons_succ, ih k]
      by_cases hk : k < A2.length
      · rw [if_pos hk, if_pos (by simp; omega), getI_cons_succ]
      · rw [if_neg hk, if_neg (by simp; omega)]
        congr 1
        simp only [List.length_cons]
        omega

theorem getI_take (l : List ruleguardReport) (a n : Nat) (hn : n < a) :
    getI (l.take a) n = getI l n := by
  by_cases h : n < l.length
  · rw [getI_eq_getElem _ n (by simp; omega), getI_eq_getElem l n h]
    try exact List.getElem_take l
  · rw [getI_oob _ n (by simp; omega), getI_oob l n (by omega)]

theorem getI_drop (l : List ruleguardReport) (b k : Nat) :
    getI (l.drop b) k = getI l (b + k) := by
  by_cases h : b + k < l.length
  · rw [getI_eq_getElem _ k (by simp; omega), getI_eq_getElem l (b + k) h]
    try exact List.getElem_drop l
  · rw [getI_oob _ k (by simp; omega), getI_oob l (b + k) (by omega)]

theorem eq_of_getI_ext (l l2 : List ruleguardReport) (hlen : l.length = l2.length)
    (h : ∀ n, n < l.length → getI l n = getI l2 n) : l = l2 := by
  apply List.ext_getElem hlen
  intro n h1 h2
  rw [← getI_eq_getElem l n h1, ← getI_eq_getElem l2 n h2]
  exact h n h1

theorem decomp_of_local (l2 l : List ruleguardReport) (a b : Nat)
    (hlen : l2.length = l.length) (hab : a ≤ b) (hb : b ≤ l.length)
    (hloc : ∀ p, p < a ∨ b ≤ p → getI l2 p = getI l p) :
    l2 = l.take a ++ (l2.drop a).take (b - a) ++ l.drop b := by
  have lA : (l.take a).length = a := by simp; omega
  have lM : ((l2.drop a).take (b - a)).length = b - a := by simp [hlen]; omega
  apply eq_of_getI_ext
  · simp only [List.length_append, lA, lM, List.length_drop, hlen]
    omega
  · intro n hn
    rw [getI_append, getI_append]
    simp only [List.length_append, lA, lM]
    by_cases hna : n < a
    · rw [if_pos (by omega), if_pos hna, getI_take l a n hna]
      exact hloc n (Or.inl hna)
    · by_cases hnb : n < b
      · rw [if_pos (by omega), if_neg hna, getI_take _ _ _ (by omega), getI_drop]
        congr 1
        omega
      · rw [if_neg (by omega), getI_drop]
        have harith : b + (n - (a + (b - a))) = n := by omega
        rw [harith]
        exact hloc n (Or.inr (by omega))

theorem self_decomp (l : List ruleguardReport) (a b : Nat) (hab : a ≤ b)
    (hb : b ≤ l.length) :
    l = l.take a ++ (l.drop a).take (b - a) ++ l.drop b :=
  decomp_of_local l l a b rfl hab hb (fun _ _ => rfl)

theorem middle_perm_cancel (A m1 m2 Z : List ruleguardReport)
    (h : (A ++ m1 ++ Z).Perm (A ++ m2 ++ Z)) : m1.Perm m2 := by
  rw [← Multiset.coe_eq_coe] at h ⊢
  have h2 : (A : Multiset ruleguardReport) + m1 + Z
      = (A : Multiset ruleguardReport) + m2 + Z := by
    simpa [← Multiset.coe_add] using h
  exact add_left_cancel (add_right_cancel h2)

theorem slice_perm_of_local (l2 l : List ruleguardReport) (a b : Nat)
    (hlen : l2.length = l.length) (hperm : l2.Perm l) (hab : a ≤ b) (hb : b ≤ l.length)
    (hloc : ∀ p, p < a ∨ b ≤ p → getI l2 p = getI l p) :
    ((l2.drop a).take (b - a)).Perm ((l.drop a).take (b - a)) := by
  have hd2 := decomp_of_local l2 l a b hlen hab hb hloc
  have hd := self_decomp l a b hab hb
  apply middle_perm_cancel (l.take a) _ _ (l.drop b)
  rw [← hd2, ← hd]
  exact hperm

theorem getI_slice (l : List ruleguardReport) (a b k : Nat) (hk : k < b - a) :
    getI ((l.drop a).take (b - a)) k = getI l (a + k) := by
  rw [getI_take _ _ _ hk, getI_drop]

theorem slice_mem_bound (l : List ruleguardReport) (a b : Nat) (P : ruleguardReport → Prop)
    (hb : b ≤ l.length) (h : ∀ i, a ≤ i → i < b → P (getI l i)) :
    ∀ x ∈ (l.drop a).take (b - a), P x := by
  intro x hx
  obtain ⟨k, hk, hget⟩ := List.mem_iff_getElem.mp hx
  have hk2 : k < b - a := by simp at hk; omega
  rw [← getI_eq_getElem _ k hk, getI_slice l a b k hk2] at hget
  rw [← hget]
  exact h (a + k) (by omega) (by omega)

theorem bound_of_slice_mem (l : List ruleguardReport) (a b : Nat)
    (P : ruleguardReport → Prop) (hb : b ≤ l.length)
    (h : ∀ x ∈ (l.drop a).take (b - a), P x) :
    ∀ i, a ≤ i → i < b → P (getI l i) := by
  intro i hai hib
  have hk : i - a < b - a := by omega
  have hlen : i - a < ((l.drop a).take (b - a)).length := by simp; omega
  have hmem : ((l.drop a).take (b - a))[i - a] ∈ (l.drop a).take (b - a) :=
    List.getElem_mem hlen
  rw [← getI_eq_getElem _ _ hlen, getI_slice l a b (i - a) hk] at hmem
  have heq : a + (i - a) = i := by omega
  rw [heq] at hmem
  exact h _ hmem

theorem bound_transfer (l2 l : List ruleguardReport) (a b : Nat)
    (P : ruleguardReport → Prop)
    (hlen : l2.length = l.length) (hperm : l2.Perm l) (hab : a ≤ b) (hb : b ≤ l.length)
    (hloc : ∀ p, p < a ∨ b ≤ p → getI l2 p = getI l p)
    (h : ∀ i, a ≤ i → i < b → P (getI l i)) :
    ∀ i, a ≤ i → i < b → P (getI l2 i) := by
  apply bound_of_slice_mem l2 a b P (by omega)
  intro x hx
  have hsl := slice_perm_of_local l2 l a b hlen hperm hab hb hloc
  exact slice_mem_bound l a b P hb h x (hsl.mem_iff.mp hx)

theorem medianOfThree_length (l : List ruleguardReport) (m1 m0 m2 : Nat) :
    (medianOfThree l m1 m0 m2).length = l.length := by
  unfold medianOfThree
  dsimp only
  split_ifs <;> simp [swp_length]

theorem medianOfThree_local (l : List ruleguardReport) (m1 m0 m2 p : Nat)
    (hp1 : p ≠ m1) (hp0 : p ≠ m0) (hp2 : p ≠ m2) :
    getI (medianOfThree l m1 m0 m2) p = getI l p := by
  unfold medianOfThree
  dsimp only
  split_ifs <;>
    simp only [getI_swp_other _ _ _ _ hp1 hp0, getI_swp_other _ _ _ _ hp2 hp1,
      getI_swp_other _ _ _ _ hp1 hp2]

theorem medianOfThree_spec (l : List ruleguardReport) (m1 m0 m2 : Nat)
    (h1 : m1 < l.length) (h0 : m0 < l.length) (h2 : m2 < l.length)
    (h10 : m1 ≠ m0) (h12 : m1 ≠ m2) (h02 : m0 ≠ m2) :
    ¬ msgLt (getI (medianOfThree l m1 m0 m2) m1) (getI (medianOfThree l m1 m0 m2) m0)
    ∧ ¬ msgLt (getI (medianOfThree l m1 m0 m2) m2) (getI (medianOfThree l m1 m0 m2) m1) := by
  unfold medianOfThree
  dsimp only
  by_cases c1 : msgLt (getI l m1) (getI l m0)
  · rw [if_pos c1]
    have len1 : (swp l m1 m0).length = l.length := swp_length l m1 m0
    have e11 : getI (swp l m1 m0) m1 = getI l m0 := getI_swp_left l m1 m0 h1 h0
    have e10 : getI (swp l m1 m0) m0 = getI l m1 := getI_swp_right l m1 m0 h1 h0
    have e12 : getI (swp l m1 m0) m2 = getI l m2 :=
      getI_swp_other l m1 m0 m2 (Ne.symm h12) (Ne.symm h02)
    by_cases c2 : msgLt (getI (swp l m1 m0) m2) (getI (swp l m1 m0) m1)
    · rw [if_pos c2]
      have len2 : (swp (swp l m1 m0) m2 m1).length = l.length := by
        rw [swp_length, len1]
      have f12 : getI (swp (swp l m1 m0) m2 m1) m2 = getI (swp l m1 m0) m1 :=
        getI_swp_left _ m2 m1 (by omega) (by omega)
      have f11 : getI (swp (swp l m1 m0) m2 m1) m1 = getI (swp l m1 m0) m2 :=
        getI_swp_right _ m2 m1 (by omega) (by omega)
      have f10 : getI (swp (swp l m1 m0) m2 m1) m0 = getI (swp l m1 m0) m0 :=
        getI_swp_other _ m2 m1 m0 h02 (Ne.symm h10)
      by_cases c3 : msgLt (getI (swp (swp l m1 m0) m2 m1) m1)
          (getI (swp (swp l m1 m0) m2 m1) m0)
      · rw [if_pos c3]
        have g11 : getI (swp (swp (swp l m1 m0) m2 m1) m1 m0) m1
            = getI (swp (swp l m1 m0) m2 m1) m0 :=
          getI_swp_left _ m1 m0 (by omega) (by omega)
        have g10 : getI (swp (swp (swp l m1 m0) m2 m1) m1 m0) m0
            = getI (swp (swp l m1 m0) m2 m1) m1 :=
          getI_swp_right _ m1 m0 (by omega) (by omega)
        have g12 : getI (swp (swp (swp l m1 m0) m2 m1) m1 m0) m2
            = getI (swp (swp l m1 m0) m2 m1) m2 :=
          getI_swp_other _ m1 m0 m2 (Ne.symm h12) (Ne.symm h02)
        rw [f11, f10, e12, e10] at c3
        rw [g11, g10, g12, f10, f11, f12, e10, e12, e11]
        exact ⟨msgLt_asymm c3, msgLt_asymm c1⟩
      · rw [if_neg c3]
        rw [e12, e11] at c2
        rw [f11, f10, e12, e10] at c3
        rw [f12, f11, f10, e11, e12, e10]
        exact ⟨c3, msgLt_asymm c2⟩
    · rw [if_neg c2]
      rw [e12, e11] at c2
      rw [e11, e10, e12]
      exact ⟨msgLt_asymm c1, c2⟩
  · rw [if_neg c1]
    by_cases c2 : msgLt (getI l m2) (getI l m1)
    · rw [if_pos c2]
      have len2 : (swp l m2 m1).length = l.length := swp_length l m2 m1
      have p12 : getI (swp l m2 m1) m2 = getI l m1 := getI_swp_left l m2 m1 h2 h1
      have p11 : getI (swp l m2 m1) m1 = getI l m2 := getI_swp_right l m2 m1 h2 h1
      have p10 : getI (swp l m2 m1) m0 = getI l m0 :=
        getI_swp_other l m2 m1 m0 h02 (Ne.symm h10)
      by_cases c3 : msgLt (getI (swp l m2 m1) m1) (getI (swp l m2 m1) m0)
      · rw [if_pos c3]
        have q11 : getI (swp (swp l m2 m1) m1 m0) m1 = getI (swp l m2 m1) m0 :=
          getI_swp_left _ m1 m0 (by omega) (by omega)
        have q10 : getI (swp (swp l m2 m1) m1 m0) m0 = getI (swp l m2 m1) m1 :=
          getI_swp_right _ m1 m0 (by omega) (by omega)
        have q12 : getI (swp (swp l m2 m1) m1 m0) m2 = getI (swp l m2 m1) m2 :=
          getI_swp_other _ m1 m0 m2 (Ne.symm h12) (Ne.symm h02)
        rw [p11, p10] at c3
        rw [q11, q10, q12, p10, p11, p12]
        exact ⟨msgLt_asymm c3, c1⟩
      · rw [if_neg c3]
        rw [p11, p10] at c3
        rw [p12, p11, p10]
        exact ⟨c3, msgLt_asymm c2⟩
    · rw [if_neg c2]
      exact ⟨c1, c2⟩

theorem ninther_length (l : List ruleguardReport) (lo hi m : Nat) :
    (ninther l lo hi m).length = l.length := by
  unfold ninther
  dsimp only
  split
  · rw [medianOfThree_length, medianOfThree_length, medianOfThree_length]
  · rfl

theorem ninther_local (l : List ruleguardReport) (lo hi m p : Nat)
    (hm : m = (lo + hi) / 2) (hlo : lo < hi)
    (hp : p < lo ∨ hi ≤ p) : getI (ninther l lo hi m) p = getI l p := by
  unfold ninther
  dsimp only
  split
  case isTrue h =>
    rw [medianOfThree_local _ _ _ _ _ (by omega) (by omega) (by omega),
      medianOfThree_local _ _ _ _ _ (by omega) (by omega) (by omega),
      medianOfThree_local _ _ _ _ _ (by omega) (by omega) (by omega)]
  case isFalse => rfl

theorem advanceA_spec : ∀ (fuel : Nat) (l : List ruleguardReport) (a c pivot : Nat),
    a ≤ c → c - a ≤ fuel →
    a ≤ advanceA fuel l a c pivot
    ∧ advanceA fuel l a c pivot ≤ c
    ∧ (∀ p, a ≤ p → p < advanceA fuel l a c pivot → msgLt (getI l p) (getI l pivot))
    ∧ (advanceA fuel l a c pivot = c
        ∨ ¬ msgLt (getI l (advanceA fuel l a c pivot)) (getI l pivot)) := by
  intro fuel
  induction fuel with
  | zero =>
    intro l a c pivot hac hfuel
    rw [advanceA]
    exact ⟨Nat.le_refl a, hac, fun p h1 h2 => absurd h2 (by omega), Or.inl (by omega)⟩
  | succ n ih =>
    intro l a c pivot hac hfuel
    rw [advanceA]
    by_cases hcond : a < c ∧ msgLt (getI l a) (getI l pivot)
    · rw [if_pos hcond]
      obtain ⟨h1, h2, h3, h4⟩ := ih l (a + 1) c pivot (by omega) (by omega)
      refine ⟨by omega, h2, ?_, h4⟩
      intro p hp1 hp2
      by_cases hpa : p = a
      · rw [hpa]; exact hcond.2
      · exact h3 p (by omega) hp2
    · rw [if_neg hcond]
      refine ⟨Nat.le_refl a, hac, fun p h1 h2 => absurd h2 (by omega), ?_⟩
      rcases Nat.lt_or_ge a c with h | h
      · exact Or.inr (fun hlt => hcond ⟨h, hlt⟩)
      · exact Or.inl (by omega)

theorem advanceB_spec : ∀ (fuel : Nat) (l : List ruleguardReport) (b c pivot : Nat),
    b ≤ c → c - b ≤ fuel →
    b ≤ advanceB fuel l b c pivot
    ∧ advanceB fuel l b c pivot ≤ c
    ∧ (∀ p, b ≤ p → p < advanceB fuel l b c pivot → ¬ msgLt (getI l pivot) (getI l p))
    ∧ (advanceB fuel l b c pivot = c
        ∨ msgLt (getI l pivot) (getI l (advanceB fuel l b c pivot))) := by
  intro fuel
  induction fuel with
  | zero =>
    intro l b c pivot hbc hfuel
    rw [advanceB]
    exact ⟨Nat.le_refl b, hbc, fun p h1 h2 => absurd h2 (by omega), Or.inl (by omega)⟩
  | succ n ih =>
    intro l b c pivot hbc hfuel
    rw [advanceB]
    by_cases hcond : b < c ∧ ¬ msgLt (getI l pivot) (getI l b)
    · rw [if_pos hcond]
      obtain ⟨h1, h2, h3, h4⟩ := ih l (b + 1) c pivot (by omega) (by omega)
      refine ⟨by omega, h2, ?_, h4⟩
      intro p hp1 hp2
      by_cases hpb : p = b
      · rw [hpb]; exact hcond.2
      · exact h3 p (by omega) hp2
    · rw [if_neg hcond]
      refine ⟨Nat.le_refl b, hbc, fun p h1 h2 => absurd h2 (by omega), ?_⟩
      rcases Nat.lt_or_ge b c with h | h
      · by_cases hlt : msgLt (getI l pivot) (getI l b)
        · exact Or.inr hlt
        · exact absurd ⟨h, hlt⟩ hcond
      · exact Or.inl (by omega)

theorem retreatC_spec : ∀ (fuel : Nat) (l : List ruleguardReport) (b c pivot : Nat),
    b ≤ c → c - b ≤ fuel →
    retreatC fuel l b c pivot ≤ c
    ∧ b ≤ retreatC fuel l b c pivot
    ∧ (∀ p, retreatC fuel l b c pivot ≤ p → p < c → msgLt (getI l pivot) (getI l p))
    ∧ (retreatC fuel l b c pivot = b
        ∨ ¬ msgLt (getI l pivot) (getI l (retreatC fuel l b c pivot - 1))) := by
  intro fuel
  induction fuel with
  | zero =>
    intro l b c pivot hbc hfuel
    rw [retreatC]
    exact ⟨Nat.le_refl c, hbc, fun p h1 h2 => absurd h2 (by omega), Or.inl (by omega)⟩
  | succ n ih =>
    intro l b c pivot hbc hfuel
    rw [retreatC]
    by_cases hcond : b < c ∧ msgLt (getI l pivot) (getI l (c - 1))
    · rw [if_pos hcond]
      obtain ⟨h1, h2, h3, h4⟩ := ih l b (c - 1) pivot (by omega) (by omega)
      refine ⟨by omega, h2, ?_, h4⟩
      intro p hp1 hp2
      by_cases hpc : p = c - 1
      · rw [hpc]; exact hcond.2
      · exact h3 p hp1 (by omega)
    · rw [if_neg hcond]
      refine ⟨Nat.le_refl c, hbc, fun p h1 h2 => absurd h2 (by omega), ?_⟩
      rcases Nat.lt_or_ge b c with h | h
      · by_cases hlt : msgLt (getI l pivot) (getI l (c - 1))
        · exact absurd ⟨h, hlt⟩ hcond
        · exact Or.inr hlt
      · exact Or.inl (by omega)

theorem retreatB2_spec : ∀ (fuel : Nat) (l : List ruleguardReport) (a b pivot : Nat),
    a ≤ b → b - a ≤ fuel →
    retreatB2 fuel l a b pivot ≤ b
    ∧ a ≤ retreatB2 fuel l a b pivot
    ∧ (∀ p, retreatB2 fuel l a b pivot ≤ p → p < b → ¬ msgLt (getI l p) (getI l pivot))
    ∧ (retreatB2 fuel l a b pivot = a
        ∨ msgLt (getI l (retreatB2 fuel l a b pivot - 1)) (getI l pivot)) := by
  intro fuel
  induction fuel with
  | zero =>
    intro l a b pivot hab hfuel
    rw [retreatB2]
    exact ⟨Nat.le_refl b, hab, fun p h1 h2 => absurd h2 (by omega), Or.inl (by omega)⟩
  | succ n ih =>
    intro l a b pivot hab hfuel
    rw [retreatB2]
    by_cases hcond : a < b ∧ ¬ msgLt (getI l (b - 1)) (getI l pivot)
    · rw [if_pos hcond]
      obtain ⟨h1, h2, h3, h4⟩ := ih l a (b - 1) pivot (by omega) (by omega)
      refine ⟨by omega, h2, ?_, h4⟩
      intro p hp1 hp2
      by_cases hpb : p = b - 1
      · rw [hpb]; exact hcond.2
      · exact h3 p hp1 (by omega)
    · rw [if_neg hcond]
      refine ⟨Nat.le_refl b, hab, fun p h1 h2 => absurd h2 (by omega), ?_⟩
      rcases Nat.lt_or_ge a b with h | h
      · by_cases hlt : msgLt (getI l (b - 1)) (getI l pivot)
        · exact Or.inr hlt
        · exact absurd ⟨h, hlt⟩ hcond
      · exact Or.inl (by omega)

theorem advanceA2_spec : ∀ (fuel : Nat) (l : List ruleguardReport) (a b pivot : Nat),
    a ≤ b → b - a ≤ fuel →
    a ≤ advanceA2 fuel l a b pivot
    ∧ advanceA2 fuel l a b pivot ≤ b
    ∧ (∀ p, a ≤ p → p < advanceA2 fuel l a b pivot → msgLt (getI l p) (getI l pivot))
    ∧ (advanceA2 fuel l a b pivot = b
        ∨ ¬ msgLt (getI l (advanceA2 fuel l a b pivot)) (getI l pivot)) := by
  intro fuel
  induction fuel with
  | zero =>
    intro l a b pivot hab hfuel
    rw [advanceA2]
    exact ⟨Nat.le_refl a, hab, fun p h1 h2 => absurd h2 (by omega), Or.inl (by omega)⟩
  | succ n ih =>
    intro l a b pivot hab hfuel
    rw [advanceA2]
    by_cases hcond : a < b ∧ msgLt (getI l a) (getI l pivot)
    · rw [if_pos hcond]
      obtain ⟨h1, h2, h3, h4⟩ := ih l (a + 1) b pivot (by omega) (by omega)
      refine ⟨by omega, h2, ?_, h4⟩
      intro p hp1 hp2
      by_cases hpa : p = a
      · rw [hpa]; exact hcond.2
      · exact h3 p (by omega) hp2
    · rw [if_neg hcond]
      refine ⟨Nat.le_refl a, hab, fun p h1 h2 => absurd h2 (by omega), ?_⟩
      rcases Nat.lt_or_ge a b with h | h
      · by_cases hlt : msgLt (getI l a) (getI l pivot)
        · exact absurd ⟨h, hlt⟩ hcond
        · exact Or.inr hlt
      · exact Or.inl (by omega)

theorem retreatB2_noop (fuel : Nat) (l : List ruleguardReport) (a b pivot : Nat)
    (h : b ≤ a) : retreatB2 (fuel + 1) l a b pivot = b := by
  rw [retreatB2, if_neg (by intro hc; omega)]

theorem advanceA2_noop (fuel : Nat) (l : List ruleguardReport) (a b pivot : Nat)
    (h : b ≤ a) : advanceA2 (fuel + 1) l a b pivot = a := by
  rw [advanceA2, if_neg (by intro hc; omega)]

theorem partLoop_spec : ∀ (fuel : Nat) (l : List ruleguardReport) (b c pivot hi1 : Nat),
    c ≤ hi1 → hi1 < l.length → pivot < b → b ≤ c → c - b < fuel →
    (∀ p, pivot < p → p < b → ¬ msgLt (getI l pivot) (getI l p)) →
    (∀ p, c ≤ p → p < hi1 → msgLt (getI l pivot) (getI l p)) →
    (partLoop fuel l b c pivot).1.length = l.length
    ∧ (∀ p, p < b ∨ c ≤ p → getI (partLoop fuel l b c pivot).1 p = getI l p)
    ∧ b ≤ (partLoop fuel l b c pivot).2.1
    ∧ (partLoop fuel l b c pivot).2.1 = (partLoop fuel l b c pivot).2.2
    ∧ (partLoop fuel l b c pivot).2.2 ≤ c
    ∧ (∀ p, pivot < p → p < (partLoop fuel l b c pivot).2.1 →
        ¬ msgLt (getI l pivot) (getI (partLoop fuel l b c pivot).1 p))
    ∧ (∀ p, (partLoop fuel l b c pivot).2.2 ≤ p → p < hi1 →
        msgLt (getI l pivot) (getI (partLoop fuel l b c pivot).1 p)) := by
  intro fuel
  induction fuel with
  | zero =>
    intro l b c pivot hi1 hchi hhi hpb hbc hfuel Hleft Hright
    omega
  | succ n ih =>
    intro l b c pivot hi1 hchi hhi hpb hbc hfuel Hleft Hright
    rw [partLoop]
    obtain ⟨hB1, hB2, hB3, hB4⟩ := advanceB_spec (c + 1) l b c pivot hbc (by omega)
    set B := advanceB (c + 1) l b c pivot with hBdef
    obtain ⟨hC1, hC2, hC3, hC4⟩ := retreatC_spec (c + 1) l B c pivot hB2 (by omega)
    set C := retreatC (c + 1) l B c pivot with hCdef
    by_cases hstop : B ≥ C
    · rw [if_pos hstop]
      dsimp only
      have hBC : B = C := by omega
      refine ⟨rfl, fun p hp => rfl, hB1, hBC, hC1, ?_, ?_⟩
      · intro p hp1 hp2
        by_cases hpb2 : p < b
        · exact Hleft p hp1 hpb2
        · exact hB3 p (by omega) (by omega)
      · intro p hp1 hp2
        by_cases hpc : p < c
        · exact hC3 p hp1 hpc
        · exact Hright p (by omega) hp2
    · rw [if_neg hstop]
      push_neg at hstop
      have hBc : B < c := by omega
      have hlt : msgLt (getI l pivot) (getI l B) := by
        rcases hB4 with h | h
        · omega
        · exact h
      have hne : ¬ msgLt (getI l pivot) (getI l (C - 1)) := by
        rcases hC4 with h | h
        · omega
        · exact h
      have hstrict : B < C - 1 := by
        rcases Nat.lt_or_ge B (C - 1) with h | h
        · exact h
        · have hBeq : B = C - 1 := by omega
          rw [hBeq] at hlt
          exact absurd hlt hne
      have hlen2 : (swp l B (C - 1)).length = l.length := swp_length l B (C - 1)
      have hBbound : B < l.length := by omega
      have hC1bound : C - 1 < l.length := by omega
      have eB : getI (swp l B (C - 1)) B = getI l (C - 1) :=
        getI_swp_left l B (C - 1) hBbound hC1bound
      have eC : getI (swp l B (C - 1)) (C - 1) = getI l B :=
        getI_swp_right l B (C - 1) hBbound hC1bound
      have eO : ∀ p, p ≠ B → p ≠ C - 1 → getI (swp l B (C - 1)) p = getI l p :=
        fun p h1 h2 => getI_swp_other l B (C - 1) p h1 h2
      have ePiv : getI (swp l B (C - 1)) pivot = getI l pivot := eO pivot (by omega) (by omega)
      have HL2 : ∀ p, pivot < p → p < B + 1 →
          ¬ msgLt (getI (swp l B (C - 1)) pivot) (getI (swp l B (C - 1)) p) := by
        intro p hp1 hp2
        rw [ePiv]
        by_cases hpB : p = B
        · rw [hpB, eB]; exact hne
        · rw [eO p hpB (by omega)]
          by_cases hpb2 : p < b
          · exact Hleft p hp1 hpb2
          · exact hB3 p (by omega) (by omega)
      have HR2 : ∀ p, C - 1 ≤ p → p < hi1 →
          msgLt (getI (swp l B (C - 1)) pivot) (getI (swp l B (C - 1)) p) := by
        intro p hp1 hp2
        rw [ePiv]
        by_cases hpC : p = C - 1
        · rw [hpC, eC]; exact hlt
        · rw [eO p (by omega) hpC]
          by_cases hpc : p < c
          · exact hC3 p (by omega) hpc
          · exact Hright p (by omega) hp2
      obtain ⟨ih1, ih2, ih3, ih4, ih5, ih6, ih7⟩ :=
        ih (swp l B (C - 1)) (B + 1) (C - 1) pivot hi1 (by omega)
          (by rw [hlen2]; exact hhi) (by omega) (by omega) (by omega) HL2 HR2
      refine ⟨by rw [ih1, hlen2], ?_, by omega, ih4, by omega, ?_, ?_⟩
      · intro p hp
        have hp2 : p < B + 1 ∨ C - 1 ≤ p := by
          rcases hp with h | h
          · exact Or.inl (by omega)
          · exact Or.inr (by omega)
        rw [ih2 p hp2, eO p (by omega) (by omega)]
      · intro p hp1 hp2
        have := ih6 p hp1 hp2
        rwa [ePiv] at this
      · intro p hp1 hp2
        have := ih7 p hp1 hp2
        rwa [ePiv] at this

theorem protLoop_spec : ∀ (fuel : Nat) (l : List ruleguardReport) (a b pivot c1 hiB : Nat),
    b ≤ c1 → c1 ≤ hiB → hiB ≤ l.length → pivot < a → a ≤ b → b - a < fuel →
    (∀ p, pivot < p → p < b → ¬ msgLt (getI l pivot) (getI l p)) →
    (∀ p, b ≤ p → p < c1 →
        ¬ msgLt (getI l pivot) (getI l p) ∧ ¬ msgLt (getI l p) (getI l pivot)) →
    (protLoop fuel l a b pivot).1.length = l.length
    ∧ (∀ p, p ≤ pivot ∨ c1 ≤ p → getI (protLoop fuel l a b pivot).1 p = getI l p)
    ∧ pivot < (protLoop fuel l a b pivot).2.2
    ∧ (protLoop fuel l a b pivot).2.2 ≤ b
    ∧ (∀ p, pivot < p → p < (protLoop fuel l a b pivot).2.2 →
        ¬ msgLt (getI l pivot) (getI (protLoop fuel l a b pivot).1 p))
    ∧ (∀ p, (protLoop fuel l a b pivot).2.2 ≤ p → p < c1 →
        ¬ msgLt (getI l pivot) (getI (protLoop fuel l a b pivot).1 p)
        ∧ ¬ msgLt (getI (protLoop fuel l a b pivot).1 p) (getI l pivot)) := by
  intro fuel
  induction fuel with
  | zero =>
    intro l a b pivot c1 hiB hbc1 hc1hi hhilen hpa hab hfuel Hleft Hmid
    omega
  | succ n ih =>
    intro l a b pivot c1 hiB hbc1 hc1hi hhilen hpa hab hfuel Hleft Hmid
    rw [protLoop]
    obtain ⟨hB1, hB2, hB3, hB4⟩ := retreatB2_spec (b + 1) l a b pivot hab (by omega)
    set B := retreatB2 (b + 1) l a b pivot with hBdef
    obtain ⟨hA1, hA2, hA3, hA4⟩ := advanceA2_spec (B + 1) l a B pivot hB2 (by omega)
    set A := advanceA2 (B + 1) l a B pivot with hAdef
    have M1 : ∀ p, B ≤ p → p < c1 →
        ¬ msgLt (getI l pivot) (getI l p) ∧ ¬ msgLt (getI l p) (getI l pivot) := by
      intro p hp1 hp2
      by_cases hpb : p < b
      · exact ⟨Hleft p (by omega) hpb, hB3 p hp1 hpb⟩
      · exact Hmid p (by omega) hp2
    by_cases hstop : A ≥ B
    · rw [if_pos hstop]
      dsimp only
      refine ⟨rfl, fun p hp => rfl, by omega, hB1, ?_, ?_⟩
      · intro p hp1 hp2
        exact Hleft p hp1 (by omega)
      · exact M1
    · rw [if_neg hstop]
      push_neg at hstop
      have hgeA : ¬ msgLt (getI l A) (getI l pivot) := by
        rcases hA4 with h | h
        · omega
        · exact h
      have hltB : msgLt (getI l (B - 1)) (getI l pivot) := by
        rcases hB4 with h | h
        · omega
        · exact h
      have hstrict : A < B - 1 := by
        rcases Nat.lt_or_ge A (B - 1) with h | h
        · exact h
        · have hAeq : A = B - 1 := by omega
          rw [hAeq] at hgeA
          exact absurd hltB hgeA
      have hAbound : A < l.length := by omega
      have hB1bound : B - 1 < l.length := by omega
      have hlen2 : (swp l A (B - 1)).length = l.length := swp_length l A (B - 1)
      have eA : getI (swp l A (B - 1)) A = getI l (B - 1) :=
        getI_swp_left l A (B - 1) hAbound hB1bound
      have eB : getI (swp l A (B - 1)) (B - 1) = getI l A :=
        getI_swp_right l A (B - 1) hAbound hB1bound
      have eO : ∀ p, p ≠ A → p ≠ B - 1 → getI (swp l A (B - 1)) p = getI l p :=
        fun p h1 h2 => getI_swp_other l A (B - 1) p h1 h2
      have ePiv : getI (swp l A (B - 1)) pivot = getI l pivot := eO pivot (by omega) (by omega)
      have HL2 : ∀ p, pivot < p → p < B - 1 →
          ¬ msgLt (getI (swp l A (B - 1)) pivot) (getI (swp l A (B - 1)) p) := by
        intro p hp1 hp2
        rw [ePiv]
        by_cases hpA : p = A
        · rw [hpA, eA]
          exact msgLt_asymm hltB
        · rw [eO p hpA (by omega)]
          exact Hleft p hp1 (by omega)
      have HM2 : ∀ p, B - 1 ≤ p → p < c1 →
          ¬ msgLt (getI (swp l A (B - 1)) pivot) (getI (swp l A (B - 1)) p)
          ∧ ¬ msgLt (getI (swp l A (B - 1)) p) (getI (swp l A (B - 1)) pivot) := by
        intro p hp1 hp2
        rw [ePiv]
        by_cases hpB : p = B - 1
        · rw [hpB, eB]
          exact ⟨Hleft A (by omega) (by omega), hgeA⟩
        · rw [eO p (by omega) hpB]
          exact M1 p (by omega) hp2
      obtain ⟨ih1, ih2, ih3, ih4, ih5, ih6⟩ :=
        ih (swp l A (B - 1)) (A + 1) (B - 1) pivot c1 hiB (by omega) hc1hi
          (by rw [hlen2]; exact hhilen) (by omega) (by omega) (by omega) HL2 HM2
      refine ⟨by rw [ih1, hlen2], ?_, by omega, by omega, ?_, ?_⟩
      · intro p hp
        rw [ih2 p hp, eO p (by omega) (by omega)]
      · intro p hp1 hp2
        have := ih5 p hp1 hp2
        rwa [ePiv] at this
      · intro p hp1 hp2
        have := ih6 p hp1 hp2
        rwa [ePiv] at this

theorem dupCheck_spec (l : List ruleguardReport) (lo hi m b c : Nat)
    (hlen : hi ≤ l.length) (hd : hi - lo > 12) (hm : m = (lo + hi) / 2)
    (hbc : b = c) (hblo : lo + 1 ≤ b) (hchi : c ≤ hi - 1)
    (Hleft : ∀ p, lo < p → p < b → ¬ msgLt (getI l lo) (getI l p))
    (Hright : ∀ p, c ≤ p → p < hi - 1 → msgLt (getI l lo) (getI l p))
    (Hhi : ¬ msgLt (getI l (hi - 1)) (getI l lo)) :
    (dupCheck l lo hi m lo b c).1.length = l.length
    ∧ (∀ p, p ≤ lo ∨ hi ≤ p → getI (dupCheck l lo hi m lo b c).1 p = getI l p)
    ∧ lo + 1 ≤ (dupCheck l lo hi m lo b c).2.1
    ∧ (dupCheck l lo hi m lo b c).2.1 ≤ b
    ∧ c ≤ (dupCheck l lo hi m lo b c).2.2.1
    ∧ (dupCheck l lo hi m lo b c).2.2.1 ≤ hi
    ∧ (dupCheck l lo hi m lo b c).2.1 ≤ (dupCheck l lo hi m lo b c).2.2.1
    ∧ (∀ p, lo < p → p < (dupCheck l lo hi m lo b c).2.1 →
        ¬ msgLt (getI l lo) (getI (dupCheck l lo hi m lo b c).1 p))
    ∧ (∀ p, (dupCheck l lo hi m lo b c).2.1 ≤ p → p < (dupCheck l lo hi m lo b c).2.2.1 →
        ¬ msgLt (getI l lo) (getI (dupCheck l lo hi m lo b c).1 p)
        ∧ ¬ msgLt (getI (dupCheck l lo hi m lo b c).1 p) (getI l lo))
    ∧ (∀ p, (dupCheck l lo hi m lo b c).2.2.1 ≤ p → p < hi →
        ¬ msgLt (getI (dupCheck l lo hi m lo b c).1 p) (getI l lo)) := by
  unfold dupCheck
  by_cases hmain : ¬ (hi - c < 5) ∧ hi - c < (hi - lo) / 4
  · rw [if_pos hmain]
    obtain ⟨hm5, hm4⟩ := hmain
    have h5 : 5 ≤ hi - c := by omega
    have hd24 : 24 ≤ hi - lo := by omega
    have hb18 : lo + 18 ≤ b := by omega
    have hmb : m < b - 2 := by omega
    have hmlo2 : lo < m := by omega
    dsimp only
    by_cases hc1 : ¬ msgLt (getI l lo) (getI l (hi - 1))
    · rw [if_pos hc1]
      dsimp only
      have hclen : c < l.length := by omega
      have hhlen : hi - 1 < l.length := by omega
      have hlen1 : (swp l c (hi - 1)).length = l.length := swp_length l c (hi - 1)
      have e1c : getI (swp l c (hi - 1)) c = getI l (hi - 1) :=
        getI_swp_left l c (hi - 1) hclen hhlen
      have e1h : getI (swp l c (hi - 1)) (hi - 1) = getI l c :=
        getI_swp_right l c (hi - 1) hclen hhlen
      have e1o : ∀ p, p ≠ c → p ≠ hi - 1 → getI (swp l c (hi - 1)) p = getI l p :=
        fun p h1 h2 => getI_swp_other l c (hi - 1) p h1 h2
      have e1piv : getI (swp l c (hi - 1)) lo = getI l lo := e1o lo (by omega) (by omega)
      have e1loc : ∀ p, p ≤ lo ∨ hi ≤ p → getI (swp l c (hi - 1)) p = getI l p := by
        intro p hp
        exact e1o p (by omega) (by omega)
      have P1left : ∀ p, lo < p → p < b → ¬ msgLt (getI l lo) (getI (swp l c (hi - 1)) p) := by
        intro p h1 h2
        rw [e1o p (by omega) (by omega)]
        exact Hleft p h1 h2
      have P1mid : ∀ p, b ≤ p → p < c + 1 →
          ¬ msgLt (getI l lo) (getI (swp l c (hi - 1)) p)
          ∧ ¬ msgLt (getI (swp l c (hi - 1)) p) (getI l lo) := by
        intro p h1 h2
        have hpc : p = c := by omega
        rw [hpc, e1c]
        exact ⟨hc1, Hhi⟩
      have P1right : ∀ p, c + 1 ≤ p → p < hi →
          ¬ msgLt (getI (swp l c (hi - 1)) p) (getI l lo) := by
        intro p h1 h2
        by_cases hph : p = hi - 1
        · rw [hph, e1h]
          exact msgLt_asymm (Hright c (Nat.le_refl c) (by omega))
        · rw [e1o p (by omega) hph]
          exact msgLt_asymm (Hright p (by omega) (by omega))
      by_cases hc2 : ¬ msgLt (getI (swp l c (hi - 1)) (b - 1)) (getI (swp l c (hi - 1)) lo)
      · rw [if_pos hc2]
        dsimp only
        have Q2 : ¬ msgLt (getI (swp l c (hi - 1)) (b - 1)) (getI l lo) := by rwa [e1piv] at hc2
        have P2mid : ∀ p, b - 1 ≤ p → p < c + 1 →
            ¬ msgLt (getI l lo) (getI (swp l c (hi - 1)) p)
            ∧ ¬ msgLt (getI (swp l c (hi - 1)) p) (getI l lo) := by
          intro p h1 h2
          by_cases hpb : p = b - 1
          · subst hpb
            exact ⟨P1left (b - 1) (by omega) (by omega), Q2⟩
          · exact P1mid p (by omega) h2
        by_cases hc3 : ¬ msgLt (getI (swp l c (hi - 1)) m) (getI (swp l c (hi - 1)) lo)
        · rw [if_pos hc3]
          dsimp only
          have Q3 : ¬ msgLt (getI (swp l c (hi - 1)) m) (getI l lo) := by rwa [e1piv] at hc3
          have hmlen : m < (swp l c (hi - 1)).length := by rw [hlen1]; omega
          have hb2len : b - 1 - 1 < (swp l c (hi - 1)).length := by rw [hlen1]; omega
          have e2m : getI (swp (swp l c (hi - 1)) m (b - 1 - 1)) m = getI (swp l c (hi - 1)) (b - 1 - 1) :=
            getI_swp_left _ m (b - 1 - 1) hmlen hb2len
          have e2b : getI (swp (swp l c (hi - 1)) m (b - 1 - 1)) (b - 1 - 1) = getI (swp l c (hi - 1)) m :=
            getI_swp_right _ m (b - 1 - 1) hmlen hb2len
          have e2o : ∀ p, p ≠ m → p ≠ b - 1 - 1 →
              getI (swp (swp l c (hi - 1)) m (b - 1 - 1)) p = getI (swp l c (hi - 1)) p :=
            fun p h1 h2 => getI_swp_other _ m (b - 1 - 1) p h1 h2
          refine ⟨by simp only [swp_length], ?_, by omega, by omega, by omega,
            by omega, by omega, ?_, ?_, ?_⟩
          · intro p hp
            rw [e2o p (by omega) (by omega)]
            try exact e1loc p hp
          · intro p hp1 hp2
            by_cases hpm : p = m
            · subst hpm
              rw [e2m]
              exact P1left (b - 1 - 1) (by omega) (by omega)
            · rw [e2o p hpm (by omega)]
              exact P1left p hp1 (by omega)
          · intro p hp1 hp2
            by_cases hpb : p = b - 1 - 1
            · subst hpb
              rw [e2b]
              exact ⟨P1left m (by omega) (by omega), Q3⟩
            · rw [e2o p (by omega) hpb]
              exact P2mid p (by omega) hp2
          · intro p hp1 hp2
            rw [e2o p (by omega) (by omega)]
            exact P1right p hp1 hp2
        · rw [if_neg hc3]
          dsimp only
          refine ⟨hlen1, e1loc, by omega, by omega, by omega, by omega, by omega,
            ?_, P2mid, P1right⟩
          intro p hp1 hp2
          exact P1left p hp1 (by omega)
      · rw [if_neg hc2]
        dsimp only
        by_cases hc3 : ¬ msgLt (getI (swp l c (hi - 1)) m) (getI (swp l c (hi - 1)) lo)
        · rw [if_pos hc3]
          dsimp only
          have Q3 : ¬ msgLt (getI (swp l c (hi - 1)) m) (getI l lo) := by rwa [e1piv] at hc3
          have hmlen : m < (swp l c (hi - 1)).length := by rw [hlen1]; omega
          have hb2len : b - 1 < (swp l c (hi - 1)).length := by rw [hlen1]; omega
          have e2m : getI (swp (swp l c (hi - 1)) m (b - 1)) m = getI (swp l c (hi - 1)) (b - 1) :=
            getI_swp_left _ m (b - 1) hmlen hb2len
          have e2b : getI (swp (swp l c (hi - 1)) m (b - 1)) (b - 1) = getI (swp l c (hi - 1)) m :=
            getI_swp_right _ m (b - 1) hmlen hb2len
          have e2o : ∀ p, p ≠ m → p ≠ b - 1 →
              getI (swp (swp l c (hi - 1)) m (b - 1)) p = getI (swp l c (hi - 1)) p :=
            fun p h1 h2 => getI_swp_other _ m (b - 1) p h1 h2
          refine ⟨by simp only [swp_length], ?_, by omega, by omega, by omega,
            by omega, by omega, ?_, ?_, ?_⟩
          · intro p hp
            rw [e2o p (by omega) (by omega)]
            try exact e1loc p hp
          · intro p hp1 hp2
            by_cases hpm : p = m
            · subst hpm
              rw [e2m]
              exact P1left (b - 1) (by omega) (by omega)
            · rw [e2o p hpm (by omega)]
              exact P1left p hp1 (by omega)
          · intro p hp1 hp2
            by_cases hpb : p = b - 1
            · subst hpb
              rw [e2b]
              exact ⟨P1left m (by omega) (by omega), Q3⟩
            · rw [e2o p (by omega) hpb]
              exact P1mid p (by omega) hp2
          · intro p hp1 hp2
            rw [e2o p (by omega) (by omega)]
            exact P1right p hp1 hp2
        · rw [if_neg hc3]
          dsimp only
          exact ⟨hlen1, e1loc, by omega, by omega, by omega, by omega, by omega,
            P1left, P1mid, P1right⟩
    · rw [if_neg hc1]
      dsimp only
      have hlen1 : l.length = l.length := rfl
      have e1loc : ∀ p, p ≤ lo ∨ hi ≤ p → getI l p = getI l p := fun p hp => rfl
      have P1left : ∀ p, lo < p → p < b → ¬ msgLt (getI l lo) (getI l p) := Hleft
      have P1mid : ∀ p, b ≤ p → p < c →
          ¬ msgLt (getI l lo) (getI l p) ∧ ¬ msgLt (getI l p) (getI l lo) := by
        intro p h1 h2
        omega
      have P1right : ∀ p, c ≤ p → p < hi → ¬ msgLt (getI l p) (getI l lo) := by
        intro p h1 h2
        by_cases hp3 : p < hi - 1
        · exact msgLt_asymm (Hright p h1 hp3)
        · have hpe : p = hi - 1 := by omega
          rw [hpe]
          exact Hhi
      by_cases hc2 : ¬ msgLt (getI (l) (b - 1)) (getI (l) lo)
      · rw [if_pos hc2]
        dsimp only
        have Q2 : ¬ msgLt (getI (l) (b - 1)) (getI l lo) := hc2
        have P2mid : ∀ p, b - 1 ≤ p → p < c →
            ¬ msgLt (getI l lo) (getI (l) p)
            ∧ ¬ msgLt (getI (l) p) (getI l lo) := by
          intro p h1 h2
          by_cases hpb : p = b - 1
          · subst hpb
            exact ⟨P1left (b - 1) (by omega) (by omega), Q2⟩
          · exact P1mid p (by omega) h2
        by_cases hc3 : ¬ msgLt (getI (l) m) (getI (l) lo)
        · rw [if_pos hc3]
          dsimp only
          have Q3 : ¬ msgLt (getI (l) m) (getI l lo) := hc3
          have hmlen : m < (l).length := by omega
          have hb2len : b - 1 - 1 < (l).length := by omega
          have e2m : getI (swp (l) m (b - 1 - 1)) m = getI (l) (b - 1 - 1) :=
            getI_swp_left _ m (b - 1 - 1) hmlen hb2len
          have e2b : getI (swp (l) m (b - 1 - 1)) (b - 1 - 1) = getI (l) m :=
            getI_swp_right _ m (b - 1 - 1) hmlen hb2len
          have e2o : ∀ p, p ≠ m → p ≠ b - 1 - 1 →
              getI (swp (l) m (b - 1 - 1)) p = getI (l) p :=
            fun p h1 h2 => getI_swp_other _ m (b - 1 - 1) p h1 h2
          refine ⟨by simp only [swp_length], ?_, by omega, by omega, by omega,
            by omega, by omega, ?_, ?_, ?_⟩
          · intro p hp
            rw [e2o p (by omega) (by omega)]
            try exact e1loc p hp
          · intro p hp1 hp2
            by_cases hpm : p = m
            · subst hpm
              rw [e2m]
              exact P1left (b - 1 - 1) (by omega) (by omega)
            · rw [e2o p hpm (by omega)]
              exact P1left p hp1 (by omega)
          · intro p hp1 hp2
            by_cases hpb : p = b - 1 - 1
            · subst hpb
              rw [e2b]
              exact ⟨P1left m (by omega) (by omega), Q3⟩
            · rw [e2o p (by omega) hpb]
              exact P2mid p (by omega) hp2
          · intro p hp1 hp2
            rw [e2o p (by omega) (by omega)]
            exact P1right p hp1 hp2
        · rw [if_neg hc3]
          dsimp only
          refine ⟨hlen1, e1loc, by omega, by omega, by omega, by omega, by omega,
            ?_, P2mid, P1right⟩
          intro p hp1 hp2
          exact P1left p hp1 (by omega)
      · rw [if_neg hc2]
        dsimp only
        by_cases hc3 : ¬ msgLt (getI (l) m) (getI (l) lo)
        · rw [if_pos hc3]
          dsimp only
          have Q3 : ¬ msgLt (getI (l) m) (getI l lo) := hc3
          have hmlen : m < (l).length := by omega
          have hb2len : b - 1 < (l).length := by omega
          have e2m : getI (swp (l) m (b - 1)) m = getI (l) (b - 1) :=
            getI_swp_left _ m (b - 1) hmlen hb2len
          have e2b : getI (swp (l) m (b - 1)) (b - 1) = getI (l) m :=
            getI_swp_right _ m (b - 1) hmlen hb2len
          have e2o : ∀ p, p ≠ m → p ≠ b - 1 →
              getI (swp (l) m (b - 1)) p = getI (l) p :=
            fun p h1 h2 => getI_swp_other _ m (b - 1) p h1 h2
          refine ⟨by simp only [swp_length], ?_, by omega, by omega, by omega,
            by omega, by omega, ?_, ?_, ?_⟩
          · intro p hp
            rw [e2o p (by omega) (by omega)]
            try exact e1loc p hp
          · intro p hp1 hp2
            by_cases hpm : p = m
            · subst hpm
              rw [e2m]
              exact P1left (b - 1) (by omega) (by omega)
            · rw [e2o p hpm (by omega)]
              exact P1left p hp1 (by omega)
          · intro p hp1 hp2
            by_cases hpb : p = b - 1
            · subst hpb
              rw [e2b]
              exact ⟨P1left m (by omega) (by omega), Q3⟩
            · rw [e2o p (by omega) hpb]
              exact P1mid p (by omega) hp2
          · intro p hp1 hp2
            rw [e2o p (by omega) (by omega)]
            exact P1right p hp1 hp2
        · rw [if_neg hc3]
          dsimp only
          exact ⟨hlen1, e1loc, by omega, by omega, by omega, by omega, by omega,
            P1left, P1mid, P1right⟩
  · rw [if_neg hmain]
    dsimp only
    refine ⟨rfl, fun p hp => rfl, hblo, Nat.le_refl b, Nat.le_refl c, by omega, by omega,
      Hleft, ?_, ?_⟩
    · intro p hp1 hp2
      omega
    · intro p hp1 hp2
      by_cases hp3 : p < hi - 1
      · exact msgLt_asymm (Hright p hp1 hp3)
      · have hpe : p = hi - 1 := by omega
        rw [hpe]
        exact Hhi

theorem doPivotGo_spec (l : List ruleguardReport) (lo hi : Nat)
    (hlen : hi ≤ l.length) (hgap : 12 < hi - lo) :
    (doPivotGo l lo hi).1.length = l.length
    ∧ lo ≤ (doPivotGo l lo hi).2.1
    ∧ (doPivotGo l lo hi).2.1 < (doPivotGo l lo hi).2.2
    ∧ (doPivotGo l lo hi).2.2 ≤ hi
    ∧ (∀ p, p < lo ∨ hi ≤ p → getI (doPivotGo l lo hi).1 p = getI l p)
    ∧ ∃ v : ruleguardReport,
        (∀ p, lo ≤ p → p < (doPivotGo l lo hi).2.1 →
            ¬ msgLt v (getI (doPivotGo l lo hi).1 p))
        ∧ (∀ p, (doPivotGo l lo hi).2.1 ≤ p → p < (doPivotGo l lo hi).2.2 →
            ¬ msgLt v (getI (doPivotGo l lo hi).1 p)
            ∧ ¬ msgLt (getI (doPivotGo l lo hi).1 p) v)
        ∧ (∀ p, (doPivotGo l lo hi).2.2 ≤ p → p < hi →
            ¬ msgLt (getI (doPivotGo l lo hi).1 p) v) := by
  unfold doPivotGo
  dsimp only
  have nlen : (ninther l lo hi ((lo + hi) / 2)).length = l.length :=
    ninther_length l lo hi ((lo + hi) / 2)
  have nloc : ∀ p, p < lo ∨ hi ≤ p → getI (ninther l lo hi ((lo + hi) / 2)) p = getI l p :=
    fun p hp => ninther_local l lo hi ((lo + hi) / 2) p rfl (by omega) hp
  set L1 := ninther l lo hi ((lo + hi) / 2) with hL1def
  have hmmid : lo < (lo + hi) / 2 ∧ (lo + hi) / 2 < hi - 1 := by omega
  have mlen : (medianOfThree L1 lo ((lo + hi) / 2) (hi - 1)).length = L1.length :=
    medianOfThree_length L1 lo ((lo + hi) / 2) (hi - 1)
  have mloc : ∀ p, p < lo ∨ hi ≤ p →
      getI (medianOfThree L1 lo ((lo + hi) / 2) (hi - 1)) p = getI L1 p := by
    intro p hp
    rcases hp with h | h
    · exact medianOfThree_local L1 lo _ (hi - 1) p (by omega) (by omega) (by omega)
    · exact medianOfThree_local L1 lo _ (hi - 1) p (by omega) (by omega) (by omega)
  have hmed := medianOfThree_spec L1 lo ((lo + hi) / 2) (hi - 1)
    (by rw [nlen]; omega) (by rw [nlen]; omega) (by rw [nlen]; omega)
    (by omega) (by omega) (by omega)
  set L2 := medianOfThree L1 lo ((lo + hi) / 2) (hi - 1) with hL2def
  have hlen2 : hi ≤ L2.length := by rw [mlen, nlen]; exact hlen
  obtain ⟨ha1, ha2, ha3, ha4⟩ :=
    advanceA_spec (hi + 1) L2 (lo + 1) (hi - 1) lo (by omega) (by omega)
  set A := advanceA (hi + 1) L2 (lo + 1) (hi - 1) lo with hAdef
  have Hl : ∀ p, lo < p → p < A → ¬ msgLt (getI L2 lo) (getI L2 p) :=
    fun p h1 h2 => msgLt_asymm (ha3 p (by omega) h2)
  have Hr : ∀ p, hi - 1 ≤ p → p < hi - 1 → msgLt (getI L2 lo) (getI L2 p) := by
    intro p h1 h2
    omega
  obtain ⟨hr1, hr2, hr3, hr4, hr5, hr6, hr7⟩ :=
    partLoop_spec (hi + 1) L2 A (hi - 1) lo (hi - 1) (Nat.le_refl _) (by omega)
      (by omega) ha2 (by omega) Hl Hr
  set R := partLoop (hi + 1) L2 A (hi - 1) lo with hRdef
  have hpivR : getI R.1 lo = getI L2 lo := hr2 lo (Or.inl (by omega))
  have hhiR : getI R.1 (hi - 1) = getI L2 (hi - 1) := hr2 (hi - 1) (Or.inr (Nat.le_refl _))
  have HLd : ∀ p, lo < p → p < R.2.1 → ¬ msgLt (getI R.1 lo) (getI R.1 p) := by
    intro p h1 h2
    rw [hpivR]
    exact hr6 p h1 h2
  have HRd : ∀ p, R.2.2 ≤ p → p < hi - 1 → msgLt (getI R.1 lo) (getI R.1 p) := by
    intro p h1 h2
    rw [hpivR]
    exact hr7 p h1 h2
  have HHd : ¬ msgLt (getI R.1 (hi - 1)) (getI R.1 lo) := by
    rw [hpivR, hhiR]
    exact hmed.2
  obtain ⟨hd1, hd2, hd3, hd4, hd5, hd6, hd7, hd8, hd9, hd10⟩ :=
    dupCheck_spec R.1 lo hi ((lo + hi) / 2) R.2.1 R.2.2 (by rw [hr1]; exact hlen2)
      (by omega) rfl hr4 (by omega) hr5 HLd HRd HHd
  set D := dupCheck R.1 lo hi ((lo + hi) / 2) lo R.2.1 R.2.2 with hDdef
  have hpivD : getI D.1 lo = getI L2 lo := by
    rw [hd2 lo (Or.inl (Nat.le_refl lo)), hpivR]
  have hd8x : ∀ p, lo < p → p < D.2.1 → ¬ msgLt (getI L2 lo) (getI D.1 p) := by
    intro p h1 h2
    have := hd8 p h1 h2
    rwa [hpivR] at this
  have hd9x : ∀ p, D.2.1 ≤ p → p < D.2.2.1 →
      ¬ msgLt (getI L2 lo) (getI D.1 p) ∧ ¬ msgLt (getI D.1 p) (getI L2 lo) := by
    intro p h1 h2
    have := hd9 p h1 h2
    rwa [hpivR] at this
  have hd10x : ∀ p, D.2.2.1 ≤ p → p < hi → ¬ msgLt (getI D.1 p) (getI L2 lo) := by
    intro p h1 h2
    have := hd10 p h1 h2
    rwa [hpivR] at this
  have hDlen : D.1.length = l.length := by rw [hd1, hr1, mlen, nlen]
  have hDloc : ∀ p, p < lo ∨ hi ≤ p → getI D.1 p = getI l p := by
    intro p hp
    have hp2 : p ≤ lo ∨ hi ≤ p := by rcases hp with h | h; exacts [Or.inl (by omega), Or.inr h]
    have hp3 : p < A ∨ hi - 1 ≤ p := by
      rcases hp with h | h
      · exact Or.inl (by omega)
      · exact Or.inr (by omega)
    rw [hd2 p hp2, hr2 p hp3, mloc p hp, nloc p hp]
  have hirr : ¬ msgLt (getI L2 lo) (getI L2 lo) := by
    simp [msgLt, strLtB_irrefl]
  by_cases hprot : D.2.2.2 = true
  · rw [if_pos hprot]
    dsimp only
    by_cases hab : A ≤ D.2.1
    · have HLp : ∀ p, lo < p → p < D.2.1 → ¬ msgLt (getI D.1 lo) (getI D.1 p) := by
        intro p h1 h2
        rw [hpivD]
        exact hd8x p h1 h2
      have HMp : ∀ p, D.2.1 ≤ p → p < D.2.2.1 →
          ¬ msgLt (getI D.1 lo) (getI D.1 p) ∧ ¬ msgLt (getI D.1 p) (getI D.1 lo) := by
        intro p h1 h2
        rw [hpivD]
        exact hd9x p h1 h2
      obtain ⟨hp1, hp2, hp3, hp4, hp5, hp6⟩ :=
        protLoop_spec (hi + 1) D.1 A D.2.1 lo D.2.2.1 hi hd7 hd6
          (by rw [hDlen]; exact hlen) (by omega) hab (by omega) HLp HMp
      set P2 := protLoop (hi + 1) D.1 A D.2.1 lo with hP2def
      have hE1len : P2.1.length = l.length := by rw [hp1, hDlen]
      have hEpiv : getI P2.1 lo = getI L2 lo := by
        rw [hp2 lo (Or.inl (Nat.le_refl lo)), hpivD]
      have hELeft : ∀ p, lo < p → p < P2.2.2 → ¬ msgLt (getI L2 lo) (getI P2.1 p) := by
        intro p h1 h2
        have := hp5 p h1 h2
        rwa [hpivD] at this
      have hEMid : ∀ p, P2.2.2 ≤ p → p < D.2.2.1 →
          ¬ msgLt (getI L2 lo) (getI P2.1 p) ∧ ¬ msgLt (getI P2.1 p) (getI L2 lo) := by
        intro p h1 h2
        have := hp6 p h1 h2
        rwa [hpivD] at this
      have hERight : ∀ p, D.2.2.1 ≤ p → p < hi → ¬ msgLt (getI P2.1 p) (getI L2 lo) := by
        intro p h1 h2
        rw [hp2 p (Or.inr h1)]
        exact hd10x p h1 h2
      have hELoc : ∀ p, p < lo ∨ hi ≤ p → getI P2.1 p = getI l p := by
        intro p hp
        have hpq : p ≤ lo ∨ D.2.2.1 ≤ p := by
          rcases hp with h | h
          · exact Or.inl (by omega)
          · exact Or.inr (by omega)
        rw [hp2 p hpq]
        exact hDloc p hp
      have hB1p : lo + 1 ≤ P2.2.2 := hp3
      have hB2p : P2.2.2 ≤ D.2.2.1 := by omega
      have hswpb1 : lo < (P2.1).length := by rw [hE1len]; omega
      have hswpb2 : P2.2.2 - 1 < (P2.1).length := by rw [hE1len]; omega
      have eSl : getI (swp (P2.1) lo (P2.2.2 - 1)) lo = getI (P2.1) (P2.2.2 - 1) :=
        getI_swp_left _ lo (P2.2.2 - 1) hswpb1 hswpb2
      have eSr : getI (swp (P2.1) lo (P2.2.2 - 1)) (P2.2.2 - 1) = getI (P2.1) lo :=
        getI_swp_right _ lo (P2.2.2 - 1) hswpb1 hswpb2
      have eSo : ∀ p, p ≠ lo → p ≠ P2.2.2 - 1 →
          getI (swp (P2.1) lo (P2.2.2 - 1)) p = getI (P2.1) p :=
        fun p h1 h2 => getI_swp_other _ lo (P2.2.2 - 1) p h1 h2
      refine ⟨by rw [swp_length]; exact hE1len, by omega, by omega, hd6, ?_,
        ⟨getI L2 lo, ?_, ?_, ?_⟩⟩
      · intro p hp
        rw [eSo p (by omega) (by omega)]
        exact hELoc p hp
      · intro p hp1 hp2
        by_cases hplo : p = lo
        · subst hplo
          rw [eSl]
          exact hELeft (P2.2.2 - 1) (by omega) (by omega)
        · rw [eSo p hplo (by omega)]
          exact hELeft p (by omega) (by omega)
      · intro p hp1 hp2
        by_cases hpb : p = P2.2.2 - 1
        · subst hpb
          rw [eSr, hEpiv]
          exact ⟨hirr, hirr⟩
        · rw [eSo p (by omega) hpb]
          exact hEMid p (by omega) hp2
      · intro p hp1 hp2
        rw [eSo p (by omega) (by omega)]
        exact hERight p hp1 hp2
    · push_neg at hab
      have hnoop : protLoop (hi + 1) D.1 A D.2.1 lo = (D.1, A, D.2.1) := by
        rw [protLoop]
        rw [retreatB2_noop D.2.1 D.1 A D.2.1 lo (by omega)]
        rw [advanceA2_noop D.2.1 D.1 A D.2.1 lo (by omega)]
        rw [if_pos (by omega : A ≥ D.2.1)]
      rw [hnoop]
      dsimp only
      have hswpb1 : lo < (D.1).length := by rw [hDlen]; omega
      have hswpb2 : D.2.1 - 1 < (D.1).length := by rw [hDlen]; omega
      have eSl : getI (swp (D.1) lo (D.2.1 - 1)) lo = getI (D.1) (D.2.1 - 1) :=
        getI_swp_left _ lo (D.2.1 - 1) hswpb1 hswpb2
      have eSr : getI (swp (D.1) lo (D.2.1 - 1)) (D.2.1 - 1) = getI (D.1) lo :=
        getI_swp_right _ lo (D.2.1 - 1) hswpb1 hswpb2
      have eSo : ∀ p, p ≠ lo → p ≠ D.2.1 - 1 →
          getI (swp (D.1) lo (D.2.1 - 1)) p = getI (D.1) p :=
        fun p h1 h2 => getI_swp_other _ lo (D.2.1 - 1) p h1 h2
      refine ⟨by rw [swp_length]; exact hDlen, by omega, by omega, hd6, ?_,
        ⟨getI L2 lo, ?_, ?_, ?_⟩⟩
      · intro p hp
        rw [eSo p (by omega) (by omega)]
        exact hDloc p hp
      · intro p hp1 hp2
        by_cases hplo : p = lo
        · subst hplo
          rw [eSl]
          exact hd8x (D.2.1 - 1) (by omega) (by omega)
        · rw [eSo p hplo (by omega)]
          exact hd8x p (by omega) (by omega)
      · intro p hp1 hp2
        by_cases hpb : p = D.2.1 - 1
        · subst hpb
          rw [eSr, hpivD]
          exact ⟨hirr, hirr⟩
        · rw [eSo p (by omega) hpb]
          exact hd9x p (by omega) hp2
      · intro p hp1 hp2
        rw [eSo p (by omega) (by omega)]
        exact hd10x p hp1 hp2
  · rw [if_neg hprot]
    dsimp only
    have hswpb1 : lo < (D.1).length := by rw [hDlen]; omega
    have hswpb2 : D.2.1 - 1 < (D.1).length := by rw [hDlen]; omega
    have eSl : getI (swp (D.1) lo (D.2.1 - 1)) lo = getI (D.1) (D.2.1 - 1) :=
      getI_swp_left _ lo (D.2.1 - 1) hswpb1 hswpb2
    have eSr : getI (swp (D.1) lo (D.2.1 - 1)) (D.2.1 - 1) = getI (D.1) lo :=
      getI_swp_right _ lo (D.2.1 - 1) hswpb1 hswpb2
    have eSo : ∀ p, p ≠ lo → p ≠ D.2.1 - 1 →
        getI (swp (D.1) lo (D.2.1 - 1)) p = getI (D.1) p :=
      fun p h1 h2 => getI_swp_other _ lo (D.2.1 - 1) p h1 h2
    refine ⟨by rw [swp_length]; exact hDlen, by omega, by omega, hd6, ?_,
      ⟨getI L2 lo, ?_, ?_, ?_⟩⟩
    · intro p hp
      rw [eSo p (by omega) (by omega)]
      exact hDloc p hp
    · intro p hp1 hp2
      by_cases hplo : p = lo
      · subst hplo
        rw [eSl]
        exact hd8x (D.2.1 - 1) (by omega) (by omega)
      · rw [eSo p hplo (by omega)]
        exact hd8x p (by omega) (by omega)
    · intro p hp1 hp2
      by_cases hpb : p = D.2.1 - 1
      · subst hpb
        rw [eSr, hpivD]
        exact ⟨hirr, hirr⟩
      · rw [eSo p (by omega) hpb]
        exact hd9x p (by omega) hp2
    · intro p hp1 hp2
      rw [eSo p (by omega) (by omega)]
      exact hd10x p hp1 hp2


theorem set_shift_right (A B : List ruleguardReport) (n : Nat) (x : ruleguardReport) :
    (A ++ B).set (A.length + n) x = A ++ B.set n x := by
  have hAB : (A ++ B).length = A.length + B.length := by simp
  apply eq_of_getI_ext
  · simp
  · intro p hp
    rw [getI_set (A ++ B) (A.length + n) p x, getI_append A (B.set n x) p]
    by_cases h1 : p < A.length
    · rw [if_pos h1, if_neg (by omega), getI_append A B p, if_pos h1]
    · rw [if_neg h1, getI_set B n (p - A.length) x]
      by_cases h2 : A.length + n = p ∧ p < (A ++ B).length
      · rw [if_pos h2, if_pos (by omega)]
      · rw [if_neg h2, if_neg (by omega), getI_append A B p, if_neg h1]

theorem set_shift_left (A B : List ruleguardReport) (n : Nat) (x : ruleguardReport)
    (hn : n < A.length) : (A ++ B).set n x = A.set n x ++ B := by
  have hAB : (A ++ B).length = A.length + B.length := by simp
  have hAs : (A.set n x).length = A.length := by simp
  apply eq_of_getI_ext
  · simp
  · intro p hp
    rw [getI_set (A ++ B) n p x, getI_append (A.set n x) B p, hAs]
    by_cases h1 : p < A.length
    · rw [if_pos h1, getI_set A n p x]
      by_cases h2 : n = p ∧ p < (A ++ B).length
      · rw [if_pos h2, if_pos ⟨h2.1, h1⟩]
      · rw [if_neg h2, if_neg (by omega), getI_append A B p, if_pos h1]
    · rw [if_neg h1, if_neg (by omega), getI_append A B p, if_neg h1]

theorem getI_shift (A M Z : List ruleguardReport) (k : Nat) (hk : k < M.length) :
    getI ((A ++ M) ++ Z) (A.length + k) = getI M k := by
  rw [getI_append, if_pos (by simp; omega), getI_append, if_neg (by omega)]
  congr 1
  omega

theorem swp_shift (A M Z : List ruleguardReport) (i j : Nat)
    (hi : i < M.length) (hj : j < M.length) :
    swp ((A ++ M) ++ Z) (A.length + i) (A.length + j) = (A ++ swp M i j) ++ Z := by
  unfold swp
  rw [if_pos ⟨by simp; omega, by simp; omega⟩, if_pos ⟨hi, hj⟩]
  rw [getI_shift A M Z j hj, getI_shift A M Z i hi]
  rw [set_shift_left (A ++ M) Z (A.length + i) _ (by simp; omega),
      set_shift_right A M i _]
  rw [set_shift_left (A ++ M.set i (getI M j)) Z (A.length + j) _ (by simp; omega),
      set_shift_right A (M.set i (getI M j)) j _]

theorem swp_shift0 (A M Z : List ruleguardReport) (j : Nat)
    (h0 : 0 < M.length) (hj : j < M.length) :
    swp ((A ++ M) ++ Z) A.length (A.length + j) = (A ++ swp M 0 j) ++ Z :=
  swp_shift A M Z 0 j h0 hj

theorem shellA_shift : ∀ (fuel : Nat) (A M Z : List ruleguardReport) (i b : Nat),
    A.length + 6 ≤ i → b ≤ A.length + M.length →
    shellA fuel ((A ++ M) ++ Z) i b
      = (A ++ shellA fuel M (i - A.length) (b - A.length)) ++ Z := by
  intro fuel
  induction fuel with
  | zero =>
    intro A M Z i b h1 h2
    rw [shellA, shellA]
  | succ n ih =>
    intro A M Z i b h1 h2
    rw [shellA, shellA]
    by_cases hib : i < b
    · rw [if_pos hib, if_pos (by omega : i - A.length < b - A.length)]
      have hiM : i - A.length < M.length := by omega
      have e1 : getI ((A ++ M) ++ Z) i = getI M (i - A.length) := by
        have := getI_shift A M Z (i - A.length) hiM
        rwa [show A.length + (i - A.length) = i by omega] at this
      have e2 : getI ((A ++ M) ++ Z) (i - 6) = getI M (i - A.length - 6) := by
        have := getI_shift A M Z (i - A.length - 6) (by omega)
        rwa [show A.length + (i - A.length - 6) = i - 6 by omega] at this
      rw [e1, e2]
      by_cases hlt : msgLt (getI M (i - A.length)) (getI M (i - A.length - 6))
      · rw [if_pos hlt, if_pos hlt]
        have e3 : swp ((A ++ M) ++ Z) i (i - 6)
            = (A ++ swp M (i - A.length) (i - A.length - 6)) ++ Z := by
          have := swp_shift A M Z (i - A.length) (i - A.length - 6) hiM (by omega)
          rwa [show A.length + (i - A.length) = i by omega,
               show A.length + (i - A.length - 6) = i - 6 by omega] at this
        rw [e3]
        have hrec := ih A (swp M (i - A.length) (i - A.length - 6)) Z (i + 1) b (by omega)
          (by rw [swp_length]; omega)
        rw [hrec, show i + 1 - A.length = i - A.length + 1 by omega]
      · rw [if_neg hlt, if_neg hlt]
        rw [ih A M Z (i + 1) b (by omega) h2,
          show i + 1 - A.length = i - A.length + 1 by omega]
    · rw [if_neg hib, if_neg (by omega : ¬ (i - A.length < b - A.length))]

theorem bubble_self : ∀ (l : List ruleguardReport) (a : Nat), bubble l a a = l := by
  intro l a
  cases a with
  | zero => rw [bubble]
  | succ a2 => rw [bubble, if_neg (fun hc => absurd hc.1 (Nat.lt_irrefl _))]

theorem bubble_shift : ∀ (k : Nat) (A M Z : List ruleguardReport),
    k < M.length →
    bubble ((A ++ M) ++ Z) A.length (A.length + k) = (A ++ bubble M 0 k) ++ Z := by
  intro k
  induction k with
  | zero =>
    intro A M Z hk
    simp only [Nat.add_zero]
    rw [bubble_self, bubble]
  | succ k2 ih =>
    intro A M Z hk
    rw [show A.length + (k2 + 1) = (A.length + k2) + 1 by omega]
    rw [bubble, bubble]
    have e1 : getI ((A ++ M) ++ Z) (A.length + k2 + 1) = getI M (k2 + 1) := by
      have := getI_shift A M Z (k2 + 1) hk
      rwa [show A.length + (k2 + 1) = A.length + k2 + 1 by omega] at this
    have e2 : getI ((A ++ M) ++ Z) (A.length + k2) = getI M k2 :=
      getI_shift A M Z k2 (by omega)
    rw [e1, e2]
    by_cases hlt : msgLt (getI M (k2 + 1)) (getI M k2)
    · rw [if_pos ⟨by omega, hlt⟩, if_pos ⟨by omega, hlt⟩]
      have e3 : swp ((A ++ M) ++ Z) (A.length + k2 + 1) (A.length + k2)
          = (A ++ swp M (k2 + 1) k2) ++ Z := by
        have := swp_shift A M Z (k2 + 1) k2 hk (by omega)
        rwa [show A.length + (k2 + 1) = A.length + k2 + 1 by omega] at this
      rw [e3]
      exact ih A (swp M (k2 + 1) k2) Z (by rw [swp_length]; omega)
    · rw [if_neg (fun hc => hlt hc.2), if_neg (fun hc => hlt hc.2)]

theorem insSortA_shift : ∀ (fuel : Nat) (A M Z : List ruleguardReport) (i b : Nat),
    A.length ≤ i → b ≤ A.length + M.length →
    insSortA fuel ((A ++ M) ++ Z) A.length i b
      = (A ++ insSortA fuel M 0 (i - A.length) (b - A.length)) ++ Z := by
  intro fuel
  induction fuel with
  | zero =>
    intro A M Z i b h1 h2
    rw [insSortA, insSortA]
  | succ n ih =>
    intro A M Z i b h1 h2
    rw [insSortA, insSortA]
    by_cases hib : i < b
    · rw [if_pos hib, if_pos (by omega : i - A.length < b - A.length)]
      have e1 : bubble ((A ++ M) ++ Z) A.length i = (A ++ bubble M 0 (i - A.length)) ++ Z := by
        have := bubble_shift (i - A.length) A M Z (by omega)
        rwa [show A.length + (i - A.length) = i by omega] at this
      rw [e1]
      have hrec := ih A (bubble M 0 (i - A.length)) Z (i + 1) b (by omega)
        (by rw [(bubble_perm 0 (i - A.length) M).length_eq]; omega)
      rw [hrec, show i + 1 - A.length = i - A.length + 1 by omega]
    · rw [if_neg hib, if_neg (by omega : ¬ (i - A.length < b - A.length))]

theorem insertionShell_range (l : List ruleguardReport) (a b : Nat)
    (hab : a ≤ b) (hb : b ≤ l.length) :
    ∃ M : List ruleguardReport,
      M.Perm ((l.drop a).take (b - a))
      ∧ List.Pairwise msgLe M
      ∧ M.length = b - a
      ∧ insertionSortGo (shellGo l a b) a b = (l.take a ++ M) ++ l.drop b := by
  have hA : (l.take a).length = a := by simp; omega
  have hM0 : ((l.drop a).take (b - a)).length = b - a := by simp; omega
  have hM1len : (shellA b ((l.drop a).take (b - a)) 6 (b - a)).length = b - a := by
    rw [shellA_length, hM0]
  have hdec := self_decomp l a b hab hb
  refine ⟨specStableSort (shellA b ((l.drop a).take (b - a)) 6 (b - a)),
    (specStableSort_perm _).trans (shellA_perm b _ 6 (b - a)),
    specStableSort_sorted _,
    by rw [(specStableSort_perm _).length_eq, hM1len], ?_⟩
  have hshell : shellGo l a b
      = (l.take a ++ shellA b ((l.drop a).take (b - a)) 6 (b - a)) ++ l.drop b := by
    unfold shellGo
    conv_lhs => rw [hdec]
    rw [shellA_shift b (l.take a) ((l.drop a).take (b - a)) (l.drop b) (a + 6) b
        (by omega) (by omega)]
    rw [hA, show a + 6 - a = 6 by omega]
  rw [hshell]
  unfold insertionSortGo
  have hins := insSortA_shift (b - a) (l.take a)
    (shellA b ((l.drop a).take (b - a)) 6 (b - a)) (l.drop b) (a + 1) b
    (by omega) (by omega)
  rw [hA] at hins
  rw [show a + 1 - a = 1 by omega] at hins
  rw [hins]
  have hwhole : insSortA (b - a) (shellA b ((l.drop a).take (b - a)) 6 (b - a)) 0 1 (b - a)
      = specStableSort (shellA b ((l.drop a).take (b - a)) 6 (b - a)) := by
    have h2 := insertionSortGo_whole (shellA b ((l.drop a).take (b - a)) 6 (b - a))
    unfold insertionSortGo at h2
    rw [hM1len] at h2
    simpa using h2
  rw [hwhole]

theorem siftDownGo_shift : ∀ (fuel : Nat) (A M Z : List ruleguardReport) (root hi2 : Nat),
    hi2 ≤ M.length →
    siftDownGo fuel ((A ++ M) ++ Z) root hi2 A.length
      = (A ++ siftDownGo fuel M root hi2 0) ++ Z := by
  intro fuel
  induction fuel with
  | zero =>
    intro A M Z root hi2 hh
    rw [siftDownGo, siftDownGo]
  | succ n ih =>
    intro A M Z root hi2 hh
    rw [siftDownGo, siftDownGo]
    by_cases hterm : 2 * root + 1 ≥ hi2
    · rw [if_pos hterm, if_pos hterm]
    · rw [if_neg hterm, if_neg hterm]
      simp only [Nat.zero_add]
      by_cases hc2 : 2 * root + 1 + 1 < hi2
      · have e1 : getI ((A ++ M) ++ Z) (A.length + (2 * root + 1)) = getI M (2 * root + 1) :=
          getI_shift A M Z (2 * root + 1) (by omega)
        have e2 : getI ((A ++ M) ++ Z) (A.length + (2 * root + 1) + 1)
            = getI M (2 * root + 1 + 1) := by
          have := getI_shift A M Z (2 * root + 1 + 1) (by omega)
          rwa [show A.length + (2 * root + 1 + 1) = A.length + (2 * root + 1) + 1 by omega]
            at this
        rw [e1, e2]
        by_cases hcc : msgLt (getI M (2 * root + 1)) (getI M (2 * root + 1 + 1))
        · rw [if_pos (show 2 * root + 1 + 1 < hi2
              ∧ msgLt (getI M (2 * root + 1)) (getI M (2 * root + 1 + 1)) from ⟨hc2, hcc⟩)]
          have er : getI ((A ++ M) ++ Z) (A.length + root) = getI M root :=
            getI_shift A M Z root (by omega)
          have ec : getI ((A ++ M) ++ Z) (A.length + (2 * root + 1 + 1)) = getI M (2 * root + 1 + 1) :=
            getI_shift A M Z (2 * root + 1 + 1) (by omega)
          rw [er, ec]
          by_cases hswap : ¬ msgLt (getI M root) (getI M (2 * root + 1 + 1))
          · rw [if_pos hswap, if_pos hswap]
          · rw [if_neg hswap, if_neg hswap]
            rw [swp_shift A M Z root (2 * root + 1 + 1) (by omega) (by omega)]
            exact ih A (swp M root (2 * root + 1 + 1)) Z (2 * root + 1 + 1) hi2 (by rw [swp_length]; omega)
        · rw [if_neg (show ¬ (2 * root + 1 + 1 < hi2
              ∧ msgLt (getI M (2 * root + 1)) (getI M (2 * root + 1 + 1)))
              from fun hc => hcc hc.2)]
          have er : getI ((A ++ M) ++ Z) (A.length + root) = getI M root :=
            getI_shift A M Z root (by omega)
          have ec : getI ((A ++ M) ++ Z) (A.length + (2 * root + 1)) = getI M (2 * root + 1) :=
            getI_shift A M Z (2 * root + 1) (by omega)
          rw [er, ec]
          by_cases hswap : ¬ msgLt (getI M root) (getI M (2 * root + 1))
          · rw [if_pos hswap, if_pos hswap]
          · rw [if_neg hswap, if_neg hswap]
            rw [swp_shift A M Z root (2 * root + 1) (by omega) (by omega)]
            exact ih A (swp M root (2 * root + 1)) Z (2 * root + 1) hi2 (by rw [swp_length]; omega)
      · rw [if_neg (show ¬ (2 * root + 1 + 1 < hi2
            ∧ msgLt (getI ((A ++ M) ++ Z) (A.length + (2 * root + 1)))
                (getI ((A ++ M) ++ Z) (A.length + (2 * root + 1) + 1)))
            from fun hc => absurd hc.1 hc2)]
        rw [if_neg (show ¬ (2 * root + 1 + 1 < hi2
            ∧ msgLt (getI M (2 * root + 1)) (getI M (2 * root + 1 + 1)))
            from fun hc => absurd hc.1 hc2)]
        have er : getI ((A ++ M) ++ Z) (A.length + root) = getI M root :=
          getI_shift A M Z root (by omega)
        have ec : getI ((A ++ M) ++ Z) (A.length + (2 * root + 1)) = getI M (2 * root + 1) :=
          getI_shift A M Z (2 * root + 1) (by omega)
        rw [er, ec]
        by_cases hswap : ¬ msgLt (getI M root) (getI M (2 * root + 1))
        · rw [if_pos hswap, if_pos hswap]
        · rw [if_neg hswap, if_neg hswap]
          rw [swp_shift A M Z root (2 * root + 1) (by omega) (by omega)]
          exact ih A (swp M root (2 * root + 1)) Z (2 * root + 1) hi2 (by rw [swp_length]; omega)

theorem heapBuild_shift : ∀ (k : Nat) (A M Z : List ruleguardReport) (hi2 : Nat),
    hi2 ≤ M.length →
    heapBuild ((A ++ M) ++ Z) A.length hi2 k = (A ++ heapBuild M 0 hi2 k) ++ Z := by
  intro k
  induction k with
  | zero =>
    intro A M Z hi2 hh
    rw [heapBuild, heapBuild]
  | succ k2 ih =>
    intro A M Z hi2 hh
    rw [heapBuild, heapBuild]
    rw [siftDownGo_shift (hi2 + 1) A M Z k2 hi2 hh]
    exact ih A (siftDownGo (hi2 + 1) M k2 hi2 0) Z hi2
      (by rw [(siftDownGo_perm _ _ _ _ _).length_eq]; omega)

theorem heapPop_shift : ∀ (k : Nat) (A M Z : List ruleguardReport),
    k ≤ M.length → 0 < M.length →
    heapPop ((A ++ M) ++ Z) A.length k = (A ++ heapPop M 0 k) ++ Z := by
  intro k
  induction k with
  | zero =>
    intro A M Z h1 h2
    rw [heapPop, heapPop]
  | succ k2 ih =>
    intro A M Z h1 h2
    rw [heapPop, heapPop]
    simp only [Nat.zero_add]
    rw [swp_shift0 A M Z k2 h2 (by omega)]
    rw [siftDownGo_shift (k2 + 1) A (swp M 0 k2) Z 0 k2 (by rw [swp_length]; omega)]
    exact ih A (siftDownGo (k2 + 1) (swp M 0 k2) 0 k2 0) Z
      (by rw [(siftDownGo_perm _ _ _ _ _).length_eq, swp_length]; omega)
      (by rw [(siftDownGo_perm _ _ _ _ _).length_eq, swp_length]; omega)

theorem heapSortGo_shift (A M Z : List ruleguardReport) (h2 : 0 < M.length) :
    heapSortGo ((A ++ M) ++ Z) A.length (A.length + M.length)
      = (A ++ heapSortGo M 0 M.length) ++ Z := by
  unfold heapSortGo
  rw [show A.length + M.length - A.length = M.length by omega]
  simp only [Nat.sub_zero]
  rw [heapBuild_shift ((M.length - 1) / 2 + 1) A M Z M.length (Nat.le_refl _)]
  rw [heapPop_shift M.length A (heapBuild M 0 M.length ((M.length - 1) / 2 + 1)) Z
      (heapBuild_perm 0 M.length ((M.length - 1) / 2 + 1) M).length_eq.ge
      (by rw [(heapBuild_perm _ _ _ _).length_eq]; omega)]

/-- C8 (amended): applying the diagnostic ordering twice equals applying it
once for every pass of at most twelve findings; with thirteen or more
findings and duplicate messages the ordering need not be idempotent. -/
theorem C8_order_idempotent_le12 :
    ∀ l : List ruleguardReport, l.length ≤ 12 →
      sortSliceGo (sortSliceGo l) = sortSliceGo l := fun l h =>
  sortSliceGo_sorted_id (sortSliceGo_sorted_le12 l h)
    (by rw [sortSliceGo_length]; exact h)

/-- C8 witness: idempotence applied at a concrete pass. -/
theorem C8_order_idempotent_le12_witness :
    sortSliceGo (sortSliceGo [⟨1, "b"⟩, ⟨2, "a"⟩, ⟨3, "a"⟩])
      = sortSliceGo [⟨1, "b"⟩, ⟨2, "a"⟩, ⟨3, "a"⟩] :=
  C8_order_idempotent_le12 _ (by decide)

/-- C8 counterexample: a sorted pass of thirteen findings with a duplicated
message: the quicksort partition swaps the two equal-message findings g@6
and g@7, so applying the ordering twice differs from applying it once. -/
theorem C8_counterexample :
    sortSliceGo (sortSliceGo
        [⟨0, "a"⟩, ⟨1, "b"⟩, ⟨2, "c"⟩, ⟨3, "d"⟩, ⟨4, "e"⟩, ⟨5, "f"⟩, ⟨6, "g"⟩,
          ⟨7, "g"⟩, ⟨8, "h"⟩, ⟨9, "i"⟩, ⟨10, "j"⟩, ⟨11, "k"⟩, ⟨12, "l"⟩])
      ≠ sortSliceGo
        [⟨0, "a"⟩, ⟨1, "b"⟩, ⟨2, "c"⟩, ⟨3, "d"⟩, ⟨4, "e"⟩, ⟨5, "f"⟩, ⟨6, "g"⟩,
          ⟨7, "g"⟩, ⟨8, "h"⟩, ⟨9, "i"⟩, ⟨10, "j"⟩, ⟨11, "k"⟩, ⟨12, "l"⟩] := by
  decide

/-- C7: with no engine bound, walking a source unit emits nothing: no
diagnostics, no warnings, for any engine-run outcome. -/
theorem C7_no_engine_no_output :
    ∀ (debugGroup : String) (run : List ruleguardReport × Option String),
      walkFile ⟨debugGroup, none⟩ run = [] :=
  fun _ _ => rfl

theorem findings_filter_exec (rs : List ruleguardReport) :
    (rs.map (fun r => WarnEvent.finding r.node r.message)).filter
      (fun w => isExecWarn w) = [] := by
  induction rs with
  | nil => rfl
  | cons r t ih => simp [List.filter_cons, isExecWarn, ih]

/-- C6: when the engine run reports an execution error, the checker still
returns normally: the output is exactly one execution-error warning for the
whole unit followed by the findings collected before the error, ordered by
the Diagnostic Orderer; every collected finding is emitted (the ordered list
is a permutation of the collected ones). -/
theorem C6_exec_error_degrades_to_warning :
    ∀ (debugGroup : String) (rules : List String) (reports : List ruleguardReport)
      (err : String),
      walkFile ⟨debugGroup, some rules⟩ (reports, some err)
        = WarnEvent.execError err
            :: (sortSliceGo reports).map (fun r => WarnEvent.finding r.node r.message)
      ∧ ((walkFile ⟨debugGroup, some rules⟩ (reports, some err)).filter
          (fun w => isExecWarn w)).length = 1
      ∧ List.Perm (sortSliceGo reports) reports := by
  intro dg rules reports err
  refine ⟨rfl, ?_, sortSliceGo_perm reports⟩
  show ((WarnEvent.execError err
      :: (sortSliceGo reports).map (fun r => WarnEvent.finding r.node r.message)).filter
        (fun w => isExecWarn w)).length = 1
  rw [List.filter_cons,
    if_pos (show (fun w => isExecWarn w) (WarnEvent.execError err) = true from rfl),
    findings_filter_exec]
  rfl

theorem newErrorHandlerGo_ok_iff :
    ∀ (ks acc out : List String), newErrorHandlerGo ks acc = .ok out →
      ∀ e : LoadError,
        (out.any (fun k => predOf k e) = true ↔
          (acc.any (fun k => predOf k e) = true ∨
            ∃ k ∈ ks, (k = "import" ∧ e.isImport = true)
              ∨ (k = "dsl" ∧ e.isImport = false) ∨ k = "all")) := by
  intro ks
  induction ks with
  | nil =>
    intro acc out hok e
    rw [newErrorHandlerGo] at hok
    cases hok
    simp
  | cons k rest ih =>
    intro acc out hok e
    rw [newErrorHandlerGo] at hok
    by_cases h0 : k = ""
    · rw [if_pos h0] at hok
      rw [ih acc out hok e]
      subst h0
      simp
    · rw [if_neg h0] at hok
      by_cases hv : k = "dsl" ∨ k = "import" ∨ k = "all"
      · rw [if_pos hv] at hok
        rw [ih _ out hok e]
        have hacc : ((if k ∈ acc then acc else acc ++ [k]).any (fun k2 => predOf k2 e) = true)
            ↔ (acc.any (fun k2 => predOf k2 e) = true ∨ predOf k e = true) := by
          split
          case isTrue hin =>
            constructor
            · exact Or.inl
            · rintro (h | h)
              · exact h
              · exact List.any_eq_true.mpr ⟨k, hin, h⟩
          case isFalse hout => simp [List.any_append]
        rw [hacc]
        have hpk : (predOf k e = true) ↔
            ((k = "import" ∧ e.isImport = true) ∨ (k = "dsl" ∧ e.isImport = false)
              ∨ k = "all") := by
          rcases hv with rfl | rfl | rfl <;> cases hb : e.isImport <;> simp [predOf, hb]
        rw [hpk]
        constructor
        · rintro ((ha | hk) | hr)
          · exact Or.inl ha
          · exact Or.inr ⟨k, by simp, hk⟩
          · obtain ⟨k2, hk2, hp2⟩ := hr
            exact Or.inr ⟨k2, by simp [hk2], hp2⟩
        · rintro (ha | hr)
          · exact Or.inl (Or.inl ha)
          · obtain ⟨k2, hk2, hp2⟩ := hr
            rcases List.mem_cons.mp hk2 with rfl | hk3
            · exact Or.inl (Or.inr hp2)
            · exact Or.inr ⟨k2, hk3, hp2⟩
      · rw [if_neg hv] at hok
        cases hok

/-- C3: an error is classified fatal iff at least one policy name configured
in the flag accepts it, where import accepts exactly import errors, dsl
accepts exactly non-import errors, and all accepts everything; with the
empty flag (no names configured) no error is ever fatal. -/
theorem C3_classifier_is_disjunction :
    (∀ (flag : String) (h : parseErrorHandler) (e : LoadError),
      newErrorHandler flag = .ok h →
      (failOnParseError h e = true ↔
        ∃ k ∈ goSplitComma flag,
          (k = "import" ∧ e.isImport = true)
            ∨ (k = "dsl" ∧ e.isImport = false) ∨ k = "all"))
    ∧ newErrorHandler "" = .ok ⟨[]⟩
    ∧ (∀ e : LoadError, failOnParseError ⟨[]⟩ e = false) := by
  refine ⟨?_, rfl, fun _ => rfl⟩
  intro flag h e hok
  unfold newErrorHandler at hok
  cases heq : newErrorHandlerGo (goSplitComma flag) [] with
  | error e2 => rw [heq] at hok; cases hok
  | ok ks =>
    rw [heq] at hok
    cases hok
    have := newErrorHandlerGo_ok_iff (goSplitComma flag) [] ks heq e
    simpa [failOnParseError] using this

/-- C3 witness: the classifier equivalence applied to the flag "import" and
an import error. -/
theorem C3_classifier_is_disjunction_witness :
    failOnParseError ⟨["import"]⟩ ⟨true⟩ = true ↔
      ∃ k ∈ goSplitComma "import",
        (k = "import" ∧ LoadError.isImport ⟨true⟩ = true)
          ∨ (k = "dsl" ∧ LoadError.isImport ⟨true⟩ = false) ∨ k = "all" :=
  C3_classifier_is_disjunction.1 "import" ⟨["import"]⟩ ⟨true⟩ rfl

theorem newErrorHandlerGo_invalid :
    ∀ (ks acc : List String),
      (∃ k ∈ ks, k ≠ "" ∧ k ≠ "dsl" ∧ k ≠ "import" ∧ k ≠ "all") →
      ∃ k2, newErrorHandlerGo ks acc = .error (.invalidFlag k2 supportedValuesList)
        ∧ k2 ≠ "" ∧ k2 ≠ "dsl" ∧ k2 ≠ "import" ∧ k2 ≠ "all" := by
  intro ks
  induction ks with
  | nil => intro acc h; simp at h
  | cons k rest ih =>
    intro acc h
    rw [newErrorHandlerGo]
    by_cases h0 : k = ""
    · rw [if_pos h0]
      apply ih
      obtain ⟨k2, hk2, hne⟩ := h
      rcases List.mem_cons.mp hk2 with rfl | hk3
      · exact absurd h0 hne.1
      · exact ⟨k2, hk3, hne⟩
    · rw [if_neg h0]
      by_cases hv : k = "dsl" ∨ k = "import" ∨ k = "all"
      · rw [if_pos hv]
        apply ih
        obtain ⟨k2, hk2, hne⟩ := h
        rcases List.mem_cons.mp hk2 with rfl | hk3
        · rcases hv with rfl | rfl | rfl
          · exact absurd rfl hne.2.1
          · exact absurd rfl hne.2.2.1
          · exact absurd rfl hne.2.2.2
        · exact ⟨k2, hk3, hne⟩
      · rw [if_neg hv]
        push_neg at hv
        exact ⟨k, rfl, h0, hv.1, hv.2.1, hv.2.2⟩

/-- C4 (amended): whenever the rules parameter is nonempty and the
failOnError flag contains a name outside the recognized set, construction
fails with an error carrying some invalid name and the full list of
supported values (which contains import, dsl and all), and it fails before
any rule loading: the result does not depend on the filesystem or the
engine at all.  (With an empty rules parameter the flag is never validated;
see the counterexample.) -/
theorem C4_invalid_policy_rejected :
    ∀ (fs fs2 : FS) (rulesFlag failFlag debugFlag : String),
      rulesFlag ≠ "" →
      (∃ k ∈ goSplitComma failFlag, k ≠ "" ∧ k ≠ "dsl" ∧ k ≠ "import" ∧ k ≠ "all") →
      (∃ k2, newRuleguardChecker fs rulesFlag failFlag debugFlag
          = .error (.invalidFlag k2 supportedValuesList)
        ∧ k2 ≠ "" ∧ k2 ≠ "dsl" ∧ k2 ≠ "import" ∧ k2 ≠ "all")
      ∧ "import" ∈ supportedValuesList ∧ "dsl" ∈ supportedValuesList
      ∧ "all" ∈ supportedValuesList
      ∧ newRuleguardChecker fs rulesFlag failFlag debugFlag
          = newRuleguardChecker fs2 rulesFlag failFlag debugFlag := by
  intro fs fs2 rulesFlag failFlag debugFlag hr hbad
  obtain ⟨k2, herr, hne⟩ := newErrorHandlerGo_invalid (goSplitComma failFlag) [] hbad
  have hfail : newErrorHandler failFlag = .error (.invalidFlag k2 supportedValuesList) := by
    unfold newErrorHandler
    rw [herr]
  have hres : ∀ fs3 : FS, newRuleguardChecker fs3 rulesFlag failFlag debugFlag
      = .error (.invalidFlag k2 supportedValuesList) := by
    intro fs3
    unfold newRuleguardChecker
    rw [if_neg hr, hfail]
  refine ⟨⟨k2, hres fs, hne⟩, by simp [supportedValuesList], by simp [supportedValuesList],
    by simp [supportedValuesList], ?_⟩
  rw [hres fs, hres fs2]

/-- C4 witness: the amended statement applied to the flag "bogus" with a
nonempty rules parameter, under two different environments. -/
theorem C4_invalid_policy_rejected_witness :
    (∃ k2, newRuleguardChecker fsEmpty "r.go" "bogus" "d"
        = .error (.invalidFlag k2 supportedValuesList)
      ∧ k2 ≠ "" ∧ k2 ≠ "dsl" ∧ k2 ≠ "import" ∧ k2 ≠ "all")
    ∧ "import" ∈ supportedValuesList ∧ "dsl" ∈ supportedValuesList
    ∧ "all" ∈ supportedValuesList
    ∧ newRuleguardChecker fsEmpty "r.go" "bogus" "d"
        = newRuleguardChecker fsC2 "r.go" "bogus" "d" :=
  C4_invalid_policy_rejected fsEmpty fsC2 "r.go" "bogus" "d" (by decide)
    ⟨"bogus", by decide, by decide, by decide, by decide, by decide⟩

/-- C4 counterexample: the claim as stated fails when the rules parameter is
empty: construction then returns a checker without validating the policy
name, so a configuration containing the unrecognized name bogus does not
fail. -/
theorem C4_counterexample :
    newRuleguardChecker fsEmpty "" "bogus" "dbg" = .ok ⟨"dbg", none⟩ := rfl

theorem loadPatterns_zero_match (fs : FS) (h : parseErrorHandler) :
    ∀ (ps : List String) (st : LoadState) (p : String),
      p ∈ ps → fs.glob (goTrim p) = .ok [] →
      ∃ e, loadPatterns fs h ps st = .error e := by
  intro ps
  induction ps with
  | nil => intro st p hp _; simp at hp
  | cons q rest ih =>
    intro st p hp hglob
    rw [loadPatterns]
    cases hq : fs.glob (goTrim q) with
    | error u =>
      simp only [hq]
      rcases List.mem_cons.mp hp with rfl | hp2
      · rw [hq] at hglob; cases hglob
      · exact ih st p hp2 hglob
    | ok files =>
      cases files with
      | nil => exact ⟨.noFileMatching (goTrim q), by simp only [hq]⟩
      | cons f fsRest =>
        simp only [hq]
        cases hload : loadFiles fs h (f :: fsRest) st with
        | error e => exact ⟨e, by simp only [hload]⟩
        | ok st1 =>
          simp only [hload]
          rcases List.mem_cons.mp hp with rfl | hp2
          · rw [hq] at hglob; cases hglob
          · exact ih st1 p hp2 hglob

/-- C5: a rule-file pattern that expands (as a well-formed glob) to zero
files always aborts resolution with an error, whatever the failure policy
(valid, invalid or empty); and when resolution reaches that pattern first,
the error names the trimmed pattern. -/
theorem C5_zero_match_always_fatal :
    ∀ (fs : FS) (rulesFlag failFlag debugFlag p : String),
      rulesFlag ≠ "" → p ∈ goSplitComma rulesFlag → fs.glob (goTrim p) = .ok [] →
      (∃ e, newRuleguardChecker fs rulesFlag failFlag debugFlag = .error e)
      ∧ (∀ (h : parseErrorHandler) (rest : List String),
          newErrorHandler failFlag = .ok h →
          goSplitComma rulesFlag = p :: rest →
          newRuleguardChecker fs rulesFlag failFlag debugFlag
            = .error (.noFileMatching (goTrim p))) := by
  intro fs rulesFlag failFlag debugFlag p hr hp hglob
  constructor
  · unfold newRuleguardChecker
    rw [if_neg hr]
    cases hh : newErrorHandler failFlag with
    | error e => exact ⟨e, by simp only [hh]⟩
    | ok h =>
      simp only [hh]
      obtain ⟨e, he⟩ := loadPatterns_zero_match fs h (goSplitComma rulesFlag) ⟨[], 0⟩ p hp hglob
      simp only [he]
      exact ⟨e, rfl⟩
  · intro h rest hh hsplit
    unfold newRuleguardChecker
    rw [if_neg hr]
    simp only [hh, hsplit]
    rw [loadPatterns]
    simp only [hglob]

/-- C5 witness: a pattern matching nothing aborts construction with the
pattern named in the error, under the empty policy. -/
theorem C5_zero_match_always_fatal_witness :
    (∃ e, newRuleguardChecker fsEmpty "nomatch.go" "" "d" = .error e)
    ∧ (∀ (h : parseErrorHandler) (rest : List String),
        newErrorHandler "" = .ok h →
        goSplitComma "nomatch.go" = "nomatch.go" :: rest →
        newRuleguardChecker fsEmpty "nomatch.go" "" "d"
          = .error (.noFileMatching (goTrim "nomatch.go"))) :=
  C5_zero_match_always_fatal fsEmpty "nomatch.go" "" "d" "nomatch.go" (by decide)
    (by decide) rfl

/-- C9: a malformed glob pattern is skipped entirely: resolving it and then
the remaining patterns behaves exactly like resolving the remaining patterns
alone, whatever the failure policy and whatever state loading has reached:
it is never fatal. -/
theorem C9_malformed_glob_skipped :
    ∀ (fs : FS) (h : parseErrorHandler) (bad : String) (rest : List String)
      (st : LoadState),
      fs.glob (goTrim bad) = .error () →
      loadPatterns fs h (bad :: rest) st = loadPatterns fs h rest st := by
  intro fs h bad rest st hbad
  rw [loadPatterns, hbad]

/-- C9 witness: the skip rule applied in a concrete environment whose glob
reports a malformed pattern. -/
theorem C9_malformed_glob_skipped_witness :
    loadPatterns fsBadGlob ⟨["all"]⟩ ["[", "x.go"] ⟨[], 0⟩
      = loadPatterns fsBadGlob ⟨["all"]⟩ ["x.go"] ⟨[], 0⟩ :=
  C9_malformed_glob_skipped fsBadGlob ⟨["all"]⟩ "[" ["x.go"] ⟨[], 0⟩ rfl

/-- C10: with an empty rules parameter, construction returns a checker with
no engine immediately, for every failOnError value, valid or not: the
failure-policy flag is never validated in that case. -/
theorem C10_empty_rules_skips_validation :
    ∀ (fs : FS) (failFlag debugFlag : String),
      newRuleguardChecker fs "" failFlag debugFlag = .ok ⟨debugFlag, none⟩ :=
  fun _ _ _ => rfl

/-- C2 (code evaluated at the failing input): one pattern matching one rule
file whose engine load fails with a DSL (non-import) error, under the
policy import.  The error is non-fatal, the file is skipped by the engine,
yet the loop has no continue statement, so loaded becomes 1 and the
(empty) engine is bound: the checker ends with engine present holding zero
rules, where the claim and the spec (Scenario C) require loaded = 0 and an
absent engine. -/
theorem C2_skipped_file_still_counted :
    loadFiles fsC2 ⟨["import"]⟩ ["rules.go"] ⟨[], 0⟩ = .ok ⟨[], 1⟩
    ∧ newRuleguardChecker fsC2 "rules.go" "import" "" = .ok ⟨"", some []⟩ :=
  ⟨rfl, rfl⟩
